import Mathlib

/-!
Verification of the NMR reporter core against its specification.

The Python source is shallowly embedded: `Block` (block.py) becomes a
structure over lists of provenance-tagged characters, the `Formatter`
pipeline (formatter.py) becomes pure functions returning `Except`, and the
`Spectrum` matching/splitting routines (spectrum.py) become fueled
recursions whose termination is proved where claimed.

Modelling note on object identity: Python `Char.__eq__` compares `Char`
objects by identity when the other operand is a `Char` (block.py:234-239),
so two `Block`s are `==`-equal only when their character objects are the
*same* objects (or both empty) and their flags agree.  We reproduce this
with value equality by tagging each character with its provenance: raw
input characters carry their position (`raw := true`, `tag := position`),
characters freshly created from a Python `str` carry `raw := false` and
their position in that string.  Distinct raw positions therefore compare
unequal exactly as distinct Python objects do, and the only conflation
(two fresh blocks built from the same string, never compared against each
other in the modelled code paths) is harmless.
-/

namespace NMRRep

/-- A styled character of block.py's `Char`, reduced to its identity-relevant
data: the character value plus a provenance tag standing in for Python object
identity (style attributes are never consulted by the verified routines). -/
structure SChar where
  c : Char
  raw : Bool
  tag : Nat
deriving DecidableEq, Repr

/-- block.py `Block`: a sequence of characters plus the `optional` and
`variable` flags.  `var` models Python's `variable` attribute (a Lean keyword
forces the rename); it is an `Option Bool` because `Section.splice_blocks`
creates marker blocks with `variable=None`. -/
structure Block where
  chars : List SChar
  optional : Bool := false
  var : Option Bool := some false
deriving DecidableEq, Repr

/-- Characters of a raw input/template string, tagged by position
(`Block(text, runs=True)` / raw `.docx` text in the source). -/
def rawChars (s : List Char) : List SChar :=
  (List.range s.length).zipWith (fun i c => ⟨c, true, i⟩) s

/-- Characters freshly created from a Python `str` (`Block(some_str)`),
tagged by position within that string. -/
def strChars (s : List Char) : List SChar :=
  (List.range s.length).zipWith (fun i c => ⟨c, false, i⟩) s

/-- Build a `Block` from raw input text (positions tag the characters). -/
def mkRaw (s : String) : Block := ⟨rawChars s.toList, false, some false⟩

/-- `Block(some_str, optional, variable=...)`: block built from a Python str. -/
def mkStr (s : String) (opt : Bool := false) (v : Option Bool := some false) :
    Block := ⟨strChars s.toList, opt, v⟩

/-- `Block.__call__`: the plain string content of a block. -/
def bText (b : Block) : List Char := b.chars.map (·.c)

/-- Whether `pat` is a prefix of `s` (character values). -/
def isPref : List Char → List Char → Bool
  | [], _ => true
  | _ :: _, [] => false
  | a :: p, b :: s => a = b && isPref p s

/-- Python `str.find`: index of the first occurrence of `pat` in `hay`,
`none` when absent (an empty pattern matches at index 0). -/
def pyFind (hay pat : List Char) : Option Nat :=
  match hay with
  | [] => if pat = [] then some 0 else none
  | _ :: rest =>
    if isPref pat hay then some 0
    else (pyFind rest pat).map (· + 1)

/-- Fueled worker for `pyCount`; each step consumes at least one character
of `hay`, so fuel `hay.length + 1` always suffices. -/
def pyCountF : Nat → List Char → List Char → Nat
  | 0, _, _ => 0
  | _ + 1, [], pat => if pat = [] then 1 else 0
  | fuel + 1, a :: rest, pat =>
    if pat = [] then (a :: rest).length + 1
    else if isPref pat (a :: rest) then
      1 + pyCountF fuel (rest.drop (pat.length - 1)) pat
    else pyCountF fuel rest pat

/-- Python `str.count`: number of non-overlapping occurrences of `pat` in
`hay`; an empty pattern counts `len + 1` times, as in Python. -/
def pyCount (hay pat : List Char) : Nat := pyCountF (hay.length + 1) hay pat

/-- Python `hay[start:].find(pat)` reported as an absolute index, i.e.
`str.find(pat, start)`. -/
def pyFindFrom (hay pat : List Char) (start : Nat) : Option Nat :=
  (pyFind (hay.drop start) pat).map (· + start)

/-- Substring membership `pat in hay` (Python `in` on `str`). -/
def pySubstr (hay pat : List Char) : Bool := (pyFind hay pat).isSome

/-- `Block.count` with a string argument (block.py:108-114): counts value
occurrences in the joined text, formatting-insensitively. -/
def Block.countStr (b : Block) (pat : List Char) : Nat := pyCount (bText b) pat

/-- `Block.__contains__` (block.py:185-189): `count(...) > 0` on text. -/
def Block.containsB (b item : Block) : Bool := 0 < b.countStr (bText item)

/-- `Block.index` with a `Block` argument and no explicit bounds
(block.py:68-85): first occurrence of the item's text in the joined text;
`none` models Python's `ValueError`. -/
def Block.indexB (b item : Block) : Option Nat := pyFind (bText b) (bText item)

/-- `Block.__add__` for a `Block` right operand (block.py:165-173): the
character lists are concatenated and the result is a plain
`Block(new_chars)`, i.e. with default flags. -/
def Block.add (a b : Block) : Block := ⟨a.chars ++ b.chars, false, some false⟩

/-- `Block.__add__` for a `str` right operand (block.py:167-170): the str is
converted to fresh characters, and the result again carries default flags. -/
def Block.addStr (a : Block) (s : List Char) : Block :=
  ⟨a.chars ++ strChars s, false, some false⟩

/-- `str + Block` (`Block.__radd__`, block.py:175-180): a fresh block from
the str, extended in place with the block's characters; flags are the fresh
block's defaults. -/
def Block.raddStr (s : List Char) (b : Block) : Block :=
  ⟨strChars s ++ b.chars, false, some false⟩

/-- `Block.__getitem__` with a slice `[i:j]` (block.py:87-95). -/
def Block.slice (b : Block) (i j : Nat) : Block :=
  ⟨(b.chars.take j).drop i, false, some false⟩

/-- `Block.__getitem__` with a slice `[i:]`. -/
def Block.sliceFrom (b : Block) (i : Nat) : Block := ⟨b.chars.drop i, false, some false⟩

/-- `Block.__getitem__` with a slice `[:j]`. -/
def Block.sliceTo (b : Block) (j : Nat) : Block := ⟨b.chars.take j, false, some false⟩

/-- `Block[::-1]`: reversed copy. -/
def Block.rev (b : Block) : Block := ⟨b.chars.reverse, false, some false⟩

/-- `Block.pop` (block.py:120-123) drops the final character; the popped
value is returned by the source but discarded at the modelled call site. -/
def Block.popLast (b : Block) : Block := ⟨b.chars.dropLast, b.optional, b.var⟩

/-- `Block.lstrip` (block.py:148-151): deletes the first character when it
is a space (a single one, as in the source). -/
def Block.lstrip (b : Block) : Block :=
  match b.chars with
  | c :: rest => if c.c = ' ' then ⟨rest, b.optional, b.var⟩ else b
  | [] => b

/-- Errors of the embedded Python code: `FormatError`, `InputError`, and the
built-in `IndexError` / `ValueError`, plus a fuel marker for the loops that
are modelled with explicit fuel. -/
inductive PErr where
  | format | input | index | value | fuel
deriving DecidableEq, Repr

/-- Fueled worker for `pySplit`; each recursive step consumes at least one
character (the separator is non-empty there), so fuel `s.length + 1` always
suffices. -/
def pySplitF : Nat → List Char → List Char → List (List Char)
  | 0, s, _ => [s]
  | fuel + 1, s, d =>
    if d = [] then [s]
    else
      match pyFind s d with
      | none => [s]
      | some i => s.take i :: pySplitF fuel (s.drop (i + d.length)) d

/-- Python `str.split` with a non-empty separator: split at each leftmost
occurrence, working left to right (an empty separator is handled by the
caller, which models Python's `ValueError`). -/
def pySplit (s d : List Char) : List (List Char) := pySplitF (s.length + 1) s d

/-- The loop of `Block.split` (block.py:130-146).  The source walks the
block's characters with index `i`, the current fragment (`split_list[j]`)
and an offset `k` into it; moving to the next fragment (`j += 1`) is
modelled by consuming the head of the remaining fragment list.  The two
`IndexError` sites are the accesses `split_list[j]` (past the last
fragment) and `split_list[j][k]` (at or past the fragment's end, which
happens exactly on an empty fragment). -/
def splitGo : List SChar → List (List Char) → Nat → List SChar → List Block →
    Except PErr (List Block)
  | [], _, _, _, texts => .ok texts
  | _ :: rest, [], _, acc, texts =>
    (fun _ _ _ => Except.error .index) rest acc texts
  | ch :: rest, frag :: fr, k, acc, texts =>
    match frag.drop k with
    | [] => .error .index
    | fc :: _ =>
      if ch.c = fc then
        if k + 1 = frag.length then
          splitGo rest fr 0 [] (texts ++ [⟨acc ++ [ch], false, some false⟩])
        else
          splitGo rest (frag :: fr) (k + 1) (acc ++ [ch]) texts
      else
        splitGo rest (frag :: fr) k acc texts

/-- `Block.split` (block.py:125-146): split the raw string data with the
string delimiter, then re-associate each slice with the block's character
objects by scanning. -/
def Block.split (b delim : Block) : Except PErr (List Block) :=
  if bText delim = [] then .error .value
  else splitGo b.chars (pySplit (bText b) (bText delim)) 0 [] []

/-- Join a fragment list with the delimiter `d` between fragments, the
inverse of `pySplit`. -/
def joinD (d : List Char) : List (List Char) → List Char
  | [] => []
  | [f] => f
  | f :: g :: r => f ++ d ++ joinD d (g :: r)

/-! ## The template compiler (formatter.py) -/

/-- cues.py `CUES`: the recognized variable codes and their accepted
character sets (`none` = free-form). -/
def CUES : List (String × Option (List Char)) :=
  [("%n", none),
   ("%s", none),
   ("%f", some "0123456789.".toList),
   ("%c", none),
   ("%i", some "0123456789".toList),
   ("%m", some "sdtqpxhbrm*".toList),
   ("%j", some "0123456789. ,".toList),
   ("%a", none)]

/-- `key in CUES` (dict membership). -/
def inCues (key : List Char) : Bool := CUES.any (fun p => p.1.toList = key)

/-- `CUES[key]` lookup; `none` when the key is absent. -/
def cuesGet (key : List Char) : Option (Option (List Char)) :=
  (CUES.find? (fun p => p.1.toList = key)).map (·.2)

/-- The guard `if list_of_parsed: '%' in list_of_parsed[-1]()` of
formatter.py:132-133: does the last parsed block (if any) contain `%`? -/
def lastContainsPct (acc : List Block) : Bool :=
  match acc.getLast? with
  | some lb => pySubstr (bText lb) ['%']
  | none => false

/-- `Formatter._parse` (formatter.py:94-166): scan a region character by
character.  Ordinary characters accumulate in `text`; at a special
character the pending constant is flushed; `%` consumes the next character
as a two-character lowercased code (checking, in source order, duplication
in the whole raw template, adjacency to a still-last variable block, and
membership in `CUES`); `*` flips the carried `optional` flag and emits a
zero-length cue block tagged with the new value.  A `%` with nothing after
it reproduces the source's `unparsed[1]` `IndexError`. -/
def parseRegion (rawText : List Char) :
    List SChar → List SChar → Bool → List Block → Except PErr (List Block)
  | [], text, opt, acc =>
    .ok (if text ≠ [] then acc ++ [⟨text, opt, some false⟩] else acc)
  | ch :: rest, text, opt, acc =>
    if ch.c ≠ '%' ∧ ch.c ≠ '*' then
      parseRegion rawText rest (text ++ [ch]) opt acc
    else
      let acc1 := if text ≠ [] then acc ++ [⟨text, opt, some false⟩] else acc
      if ch.c = '%' then
        match rest with
        | [] => .error .index
        | c2 :: rest2 =>
          let key : List Char := ['%', c2.c.toLower]
          if 1 < pyCount rawText key then .error .format
          else if lastContainsPct acc1 then .error .format
          else if ¬ inCues key then .error .format
          else
            parseRegion rawText rest2 [] opt
              (acc1 ++ [⟨strChars key, opt, some true⟩])
      else
        parseRegion rawText rest [] (!opt) (acc1 ++ [⟨[], !opt, some false⟩])

/-! ### Sections and their derived views (formatter.py `Section`) -/

/-- `Section.constants`: blocks whose `variable` attribute is falsy
(`False` or `None`). -/
def constantsOf (s : List Block) : List Block :=
  s.filter (fun b => ¬ b.var = some true)

/-- `Section.constants_str`: texts of the constants, empty ones dropped. -/
def constantsStr (s : List Block) : List (List Char) :=
  ((constantsOf s).map bText).filter (· ≠ [])

/-- `Section.variables`. -/
def variablesOf (s : List Block) : List Block :=
  s.filter (fun b => b.var = some true)

/-- `Section.variables_str`. -/
def variablesStr (s : List Block) : List (List Char) :=
  ((variablesOf s).map bText).filter (· ≠ [])

/-- `Section.str`: the parallel list of plain texts. -/
def sectionStr (s : List Block) : List (List Char) := s.map bText

/-- The marker block `Block('', variable=None)` that
`Section.splice_blocks` (formatter.py:204-216) leaves at a merged-away
position. -/
def markerB : Block := ⟨[], false, none⟩

/-- The index pass of `Section.splice_blocks` (formatter.py:208-212).  The
source walks positions left to right; after a merge the merged-away
position holds `markerB`, whose `variable=None` never equals the next
block's boolean flag, so the following comparison necessarily fails and
scanning resumes two positions further on — which is exactly this
two-at-a-time recursion.  (Input blocks always carry a boolean `variable`
flag; markers exist only during the pass.) -/
def spliceMarked : List Block → List Block
  | x :: y :: rest =>
    if x.var = y.var then x.add y :: markerB :: spliceMarked rest
    else x :: spliceMarked (y :: rest)
  | l => l

/-- `Section.splice_blocks`: run the merge pass, then remove every marker
block (the source's `remove` loop deletes each `Block('', variable=None)`
occurrence). -/
def spliceBlocks (l : List Block) : List Block :=
  (spliceMarked l).filter (fun b => ¬ b = markerB)

/-! ### Hypotheses (formatter.py `Hypotheses`) -/

/-- `Hypotheses.__init__` (formatter.py:232-247): group the signal blocks
into pieces, cutting at each zero-length cue block; the cut blocks are
dropped, interior pieces are appended even when empty, and a trailing
piece is appended only when non-empty. -/
def toPiecesGo : List Block → List Block → List (List Block)
  | [], piece => if piece ≠ [] then [piece] else []
  | b :: rest, piece =>
    if bText b = [] then piece :: toPiecesGo rest []
    else toPiecesGo rest (piece ++ [b])

/-- The `self._pieces` list of `Hypotheses.__init__`. -/
def toPieces (sec : List Block) : List (List Block) := toPiecesGo sec []

/-- `a_list[1::2]`: elements at odd indices (the optional pieces). -/
def oddIdx (l : List (List Block)) : List (List Block) :=
  (l.enum.filter (fun p => p.1 % 2 = 1)).map (·.2)

/-- The initial `leftout` list of `find_combinations`
(formatter.py:271): `[n, n+1, ..., len-1]`. -/
def initLeftout (n len : Nat) : List Nat := List.range' n (len - n)

/-- The inner scan of `find_combinations` (formatter.py:299-305): find the
first position `i ≥ 1` whose entry `v` satisfies `v - 1 ∉ leftout`,
returning the position and the entry. -/
def fcScan (full : List Nat) : Nat → List Nat → Option (Nat × Nat)
  | _, [] => none
  | i, item :: rest =>
    if ¬ (item - 1) ∈ full then some (i, item) else fcScan full (i + 1) rest

/-- The prefix rebuilt after a decrement at position `i`
(formatter.py:303-304): working down from `w = leftout[i]` the source sets
`leftout[index] = leftout[index+1] - 1`, producing
`[w - i, w - i + 1, ..., w - 1]`.  On every state reachable from
`initLeftout` the subtraction never crosses zero (proved below), so the
`Nat` truncation agrees with Python. -/
def buildPref (w i : Nat) : List Nat := (List.range i).map (fun j => w - (i - j))

/-- One iteration of the `find_combinations` loop on `leftout`
(formatter.py:294-313); `none` models `finished = True`. -/
def fcStep : List Nat → Option (List Nat)
  | [] => none
  | a :: rest =>
    if 0 < a then some ((a - 1) :: rest)
    else
      match fcScan (a :: rest) 1 rest with
      | none => none
      | some (i, v) => some (buildPref (v - 1) i ++ (v - 1) :: (a :: rest).drop (i + 1))

/-- The colexicographic rank of a strictly increasing `leftout` list:
`Σ C(leftout[j], j+1)`.  Each loop iteration of `find_combinations`
decreases it by exactly one (proved below), which both bounds the loop and
yields the combination count. -/
def colexRank (l : List Nat) : Nat :=
  (l.enum.map (fun p => Nat.choose p.2 (p.1 + 1))).sum

/-- Position-indexed form of `colexRank`: the entry at offset `j`
contributes `C(entry, j + 1)`. -/
def rankAux : Nat → List Nat → Nat
  | _, [] => 0
  | j, a :: rest => Nat.choose a (j + 1) + rankAux (j + 1) rest

/-- The sequence of `leftout` states visited by the `find_combinations`
loop, newest last; the fuel argument is discharged by the rank bound. -/
def fcRun : Nat → List Nat → List (List Nat)
  | 0, l => [l]
  | fuel + 1, l =>
    l :: (match fcStep l with
          | none => []
          | some l2 => fcRun fuel l2)

/-- `temp_list` construction (formatter.py:286-291): soft-copy the list and
`remove` (first occurrence, by Python `==`) each item whose index is in
`leftout`. -/
def combOf (aList : List (List Block)) (leftout : List Nat) : List (List Block) :=
  aList.enum.foldl
    (fun t p => if p.1 ∈ leftout then t.erase p.2 else t) aList

/-- `find_combinations` (formatter.py:265-318): all combinations of `n`
optional pieces, in generation order. -/
def findCombinations (aList : List (List Block)) (n : Nat) :
    List (List (List Block)) :=
  let l0 := initLeftout n aList.length
  if l0 = [] then [aList]
  else (fcRun (colexRank l0 + 1) l0).map (combOf aList)

/-- The pre-splice hypothesis for one combination
(formatter.py:327-339): walk the pieces; a piece whose first value-equal
occurrence in `_pieces` (Python `list.index`) sits at an even position is
obligatory and always extends the hypothesis, otherwise it extends the
hypothesis only when the combination contains it. -/
def buildHyp (pieces : List (List Block)) (comb : List (List Block)) :
    List Block :=
  pieces.foldl
    (fun hyp piece =>
      if pieces.indexOf piece % 2 = 0 then hyp ++ piece
      else if piece ∈ comb then hyp ++ piece else hyp) []

/-- `Hypotheses.build_hypotheses` for one `n`: the group of all spliced
hypotheses with exactly `n` optional pieces (formatter.py:260-360). -/
def buildGroup (pieces : List (List Block)) (n : Nat) : List (List Block) :=
  (findCombinations (oddIdx pieces) n).map (fun comb =>
    spliceBlocks (buildHyp pieces comb))

/-- `Hypotheses.__init__` (formatter.py:230-258): one group per `n` in
`0..k`, then reverse so the fullest group comes first. -/
def hypothesesInit (signalSec : List Block) : List (List (List Block)) :=
  let pieces := toPieces signalSec
  let k := (oddIdx pieces).length
  ((List.range (k + 1)).map (fun n => buildGroup pieces n)).reverse

/-! ### `Formatter.__init__` (formatter.py:40-92) -/

/-- The compiled formatter: head and signal sections (lists of parsed
blocks), the configured delimiter, the end block, and the ranked
hypothesis groups. -/
structure Formatter where
  head : List Block
  signals : List Block
  delimiter : Block
  endB : Block
  hypotheses : List (List (List Block))
deriving DecidableEq, Repr

/-- `Formatter.__init__`: the three structural checks (slash count,
odd toggle count, whitespace before the first slash — the latter with
Python's negative-index wrap-around when the first slash is the first
character), the region cuts, and the two `_parse` runs.  `self.end` is
`Block(raw[-1])` when the last slash is not the final character. -/
def mkFormatter (raw : Block) : Except PErr Formatter := do
  let rawT := bText raw
  if pyCount rawT ['/'] ≠ 3 then throw .format
  else if pyCount rawT ['*'] % 2 ≠ 0 then throw .format
  else
    match pyFind rawT ['/'] with
    | none => throw .value
    | some ri =>
      match pyFindFrom rawT ['/'] (ri + 1) with
      | none => throw .value
      | some ri2 =>
        match pyFind rawT.reverse ['/'] with
        | none => throw .value
        | some rrev =>
          let ri3 := rawT.length - 1 - rrev
          let wsIdx := if ri = 0 then rawT.length - 1 else ri - 1
          if ¬ rawT.get? wsIdx = some ' ' then throw .format
          else
            let headRaw := raw.sliceTo ri
            let signalsRaw := raw.slice (ri + 1) ri2
            let delim := raw.slice (ri2 + 1) ri3
            let endB : Block :=
              if ri3 ≠ rawT.length - 1 then
                match raw.chars.getLast? with
                | some c => ⟨[c], false, some false⟩
                | none => ⟨[], false, some false⟩
              else ⟨[], false, some false⟩
            let headSec ← parseRegion rawT headRaw.chars [] false []
            let signalsSec ← parseRegion rawT signalsRaw.chars [] false []
            pure ⟨headSec, signalsSec, delim, endB, hypothesesInit signalsSec⟩

/-! ## The hypothesis matcher (spectrum.py `Spectrum.match_hypothesis`) -/

/-- The inner constants scan of `match_hypothesis` (spectrum.py:328-337):
count each constant's occurrences in the progressively clipped working
copy; a zero count aborts with `none` (the `next_` flag), otherwise the
count is recorded and the text is clipped to start at the constant's first
occurrence.  (When the count is positive the occurrence exists, so the
`getD` default of the clip offset is never used.) -/
def scanCountsGo : Block → List (List Char) → List Nat → Option (List Nat)
  | _, [], counts => some counts
  | temp, c :: cs, counts =>
    let cnt := temp.countStr c
    if cnt = 0 then none
    else scanCountsGo (temp.sliceFrom ((pyFind (bText temp) c).getD 0)) cs
      (counts ++ [cnt])

/-- What scanning one hypothesis contributes to the group: an early return
of the hypothesis itself, or a list of entries appended to the group's
`scores` list. -/
inductive ScanOut where
  | ret
  | scores (l : List Int)
deriving DecidableEq, Repr

/-- The running partial penalties (spectrum.py:348-350): the source's
`scores.append(score)` sits inside the `for count in counts` loop, so each
count appends the cumulative `score` so far. -/
def partialsGo : Int → List Nat → List Int
  | _, [] => []
  | s, c :: cs =>
    let s2 := s + ((c : Int) - 1)
    s2 :: partialsGo s2 cs

/-- Scan one hypothesis against the record span
(spectrum.py:322-350): a hypothesis without constant blocks returns
immediately; a zero-count constant invalidates it (a single `-1` entry);
all counts equal to one returns it; otherwise the running penalties are
appended. -/
def scanHyp (hyp : List Block) (sig : Block) : ScanOut :=
  if constantsOf hyp = [] then .ret
  else
    match scanCountsGo sig (constantsStr hyp) [] with
    | none => .scores [-1]
    | some counts =>
      if counts ≠ [] ∧ counts.all (· = 1) then .ret
      else .scores (partialsGo 0 counts)

/-- Outcome of scanning a whole group: an early return or the accumulated
`scores` list. -/
inductive GroupOut where
  | ret (h : List Block)
  | scores (l : List Int)
deriving DecidableEq, Repr

/-- Scan the hypotheses of one group in order, accumulating score entries
(spectrum.py:317-350). -/
def groupScan (sig : Block) : List (List Block) → List Int → GroupOut
  | [], acc => .scores acc
  | h :: hs, acc =>
    match scanHyp h sig with
    | .ret => .ret h
    | .scores contrib => groupScan sig hs (acc ++ contrib)

/-- Python `min` of a non-empty list (the empty case never arises at the
call site, which guards `_scores` non-empty). -/
def pyMin : List Int → Int
  | [] => 0
  | a :: rest => rest.foldl min a

/-- `Spectrum.match_hypothesis` (spectrum.py:302-375): try groups
fullest-first; inside a group return on a constant-free or exact-match
hypothesis; otherwise drop negative scores, and if any remain pick
`hypothesis_set[scores.index(min(_scores))]` — the source indexes the
hypothesis list with a position in the flattened `scores` list, which can
select the wrong hypothesis or fall off the end (`IndexError`, modelled as
`.index`).  Exhausting all groups raises `InputError`. -/
def matchHypothesis : List (List (List Block)) → Block → Except PErr (List Block)
  | [], _ => .error .input
  | grp :: rest, sig =>
    match groupScan sig grp [] with
    | .ret h => .ok h
    | .scores scores =>
      let valid := scores.filter (0 ≤ ·)
      if valid = [] then matchHypothesis rest sig
      else
        match grp.get? (scores.indexOf (pyMin valid)) with
        | some h => .ok h
        | none => .error .index

/-! ## The record splitter (spectrum.py `Spectrum.parse_signals`) -/

/-- The per-slice fix-ups of the simple split path
(spectrum.py:153-163): pop the final character when it occurs in the end
block's text, then — when the signal section has constants — reattach the
final constant's text when it is obligatory, is the section's last block,
and differs from the record's final single character.  The `+= ''` of the
false branch still rebuilds the block (flags reset), as `Block.__add__`
does. -/
def fixSlice (f : Formatter) (sig : Block) : Except PErr Block := do
  match sig.chars.getLast? with
  | none => throw .index
  | some lastCh =>
    let sig1 := if pySubstr (bText f.endB) [lastCh.c] then sig.popLast else sig
    if constantsOf f.signals ≠ [] ∧ f.signals ≠ [] then
      match (constantsOf f.signals).getLast? with
      | none => throw .index
      | some clast =>
        match f.signals.getLast? with
        | none => throw .index
        | some slast =>
          if clast.optional = false then
            if clast = slast then
              match (constantsStr f.signals).getLast? with
              | none => throw .index
              | some cstr =>
                match sig1.chars.getLast? with
                | none => throw .index
                | some lc2 =>
                  if cstr ≠ [lc2.c] then pure (sig1.addStr cstr)
                  else pure (sig1.addStr [])
            else pure (sig1.addStr [])
          else pure (sig1.addStr [])
    else pure sig1

/-- The left-anchor search (spectrum.py:205-209): starting from
`constants[0]`, advance while the anchor is absent from the text and
candidates remain. -/
def lWalkF : Nat → List Block → Block → Block → Nat → Block
  | 0, _, _, l, _ => l
  | fuel + 1, constants, text, l, i =>
    if ¬ text.containsB l ∧ i < constants.length then
      lWalkF fuel constants text (constants.getD i ⟨[], false, some false⟩) (i + 1)
    else l

/-- Python `list.index` on blocks (first `==`-equal element; the argument
is always an element at the modelled call sites, so the absent case —
Python `ValueError` — cannot arise). -/
def pyIndexBlocks (l : List Block) (b : Block) : Nat := l.indexOf b

/-- The right-anchor search (spectrum.py:218-224): starting from
`constants[-1]` and position `i = -2` downwards, advance while the anchor
is absent, `i ≥ -len`, and the anchor's first `==`-position has not passed
the left anchor's. -/
def rWalkF : Nat → List Block → Block → Block → Block → Int → Block
  | 0, _, _, _, r, _ => r
  | fuel + 1, constants, text, l, r, i =>
    if ¬ text.containsB r ∧ -(constants.length : Int) ≤ i
        ∧ pyIndexBlocks constants l ≤ pyIndexBlocks constants r then
      rWalkF fuel constants text l
        (constants.getD ((constants.length : Int) + i).toNat ⟨[], false, some false⟩)
        (i - 1)
    else r

/-- One slice computation of the inner anchored loop
(spectrum.py:249-289): locate the anchors and the delimiter, compute the
left and right boundaries, and return the sliced record.  The two
searches on the *reversed* text use the un-reversed needles, exactly as
the source does, and their failure is Python's `ValueError` (modelled
`.value`). -/
def innerIter (l r delim : Block) (text : Block) : Except PErr Block := do
  let lAnchIdx ←
    match (if ¬ l = delim then text.indexB l else text.indexB r) with
    | some v => pure v
    | none => throw .value
  let rAnchIdx ←
    match (if ¬ r = delim then text.indexB r else text.indexB l) with
    | some v => pure v
    | none => throw .value
  let delimIdx ←
    match text.indexB delim with
    | some v => pure v
    | none => throw .value
  let lIdx : Option Nat ←
    if delimIdx < lAnchIdx then do
      let revLA ←
        match pyFind (bText text.rev) (bText l) with
        | some v => pure v
        | none => throw .value
      let revD ←
        match pyFindFrom (bText text.rev) (bText delim) revLA with
        | some v => pure v
        | none => throw .value
      pure (some (text.chars.length - revD))
    else pure none
  let rIdx : Option Nat ←
    if pySubstr (bText (text.sliceFrom (rAnchIdx + r.chars.length)))
        (bText delim) then do
      match pyFindFrom (bText text) (bText delim) (rAnchIdx + r.chars.length) with
      | some v => pure (some v)
      | none => throw .value
    else pure none
  pure (Block.slice text (lIdx.getD 0) (rIdx.getD text.chars.length))

/-- The inner anchored-slicing loop of `complex_parse_into_signals`
(spectrum.py:242-298).  Each iteration slices one record, appends it,
consumes it plus one delimiter from the text, and exits early (with
`finished`) when that makes no progress — the progress check compares the
new text with `text_ = self.text[:]`, a copy whose slice flags are the
defaults. -/
def innerLoopF (l r delim : Block) :
    Nat → Block → List Block → Except PErr (Block × List Block × Bool)
  | 0, _, _ => throw .fuel
  | fuel + 1, text, sigs =>
    if text.containsB l ∧ text.containsB r ∧ text.containsB delim then do
      let sig ← innerIter l r delim text
      let sigs2 := sigs ++ [sig]
      let text2 := text.sliceFrom (sig.chars.length + delim.chars.length)
      if text2 = (⟨text.chars, false, some false⟩ : Block) then
        pure (text2, sigs2, true)
      else innerLoopF l r delim fuel text2 sigs2
    else pure (text, sigs, false)

/-- The outer loop of `complex_parse_into_signals` (spectrum.py:197-298):
re-pick the anchors, either fall back to a direct split (and finish) or
run the anchored inner loop, then repeat while unfinished and text
remains. -/
def outerLoopF (constants : List Block) (delim : Block) :
    Nat → Bool → Block → List Block → Except PErr (List Block)
  | 0, _, _, _ => throw .fuel
  | fuel + 1, finished, text, sigs =>
    if ¬ finished ∧ text.chars ≠ [] then
      match constants.head? with
      | none => throw .index
      | some c0 =>
        match constants.getLast? with
        | none => throw .index
        | some cl => do
          let l := lWalkF (constants.length + 1) constants text c0 1
          let r := rWalkF (constants.length + 2) constants text l cl (-2)
          if (¬ text.containsB l ∧ ¬ text.containsB r) ∨ (l = delim ∧ r = delim)
              ∨ ¬ pySubstr (bText text) (bText delim) then do
            let extra ← text.split delim
            pure (sigs ++ extra)
          else do
            let res ← innerLoopF l r delim (text.chars.length + 1) text sigs
            outerLoopF constants delim fuel res.2.2 res.1 res.2.1
    else pure sigs

/-- `Spectrum.complex_parse_into_signals` (spectrum.py:187-300). -/
def complexParse (constants : List Block) (delim : Block) (text : Block) :
    Except PErr (List Block) :=
  outerLoopF constants delim (text.chars.length + 2) false text []

/-- The record-splitting part of `Spectrum.parse_signals`
(spectrum.py:127-177): build the effective delimiter (append the signal
section's final literal non-optional block's text in front of the
configured delimiter), then split directly with per-slice fix-ups when the
fullest hypothesis does not contain the delimiter, and fall back to the
complex path otherwise. -/
def parseSignalsSplit (f : Formatter) (text : Block) : Except PErr (List Block) :=
  match f.signals.getLast? with
  | none => .error .index
  | some lastB =>
    let delim :=
      if ¬ lastB.var = some true ∧ lastB.optional = false then
        Block.raddStr (bText lastB) f.delimiter
      else f.delimiter
    match f.hypotheses with
    | (full0 :: _) :: _ =>
      if ¬ pySubstr (sectionStr full0).join (bText delim) then do
        let sigs ← text.split delim
        sigs.mapM (fixSlice f)
      else complexParse (constantsOf f.signals) delim text
    | _ => .error .index

/-! ## Field extraction (spectrum.py `Spectrum.parse_signal`, cue loop) -/

/-- The character-class validation loop of `parse_signal`
(spectrum.py:427-455): consume characters belonging to the cue into the
appendix; at a rejected character, end the field if the current constant
starts right there (`block in working_slice[:len(block)]`), otherwise
raise `InputError`.  Returns the appendix and the remaining slice. -/
def cueLoopF (cue : List Char) (blockS : List Char) :
    Nat → List SChar → List SChar → Except PErr (List SChar × List SChar)
  | 0, _, _ => throw .fuel
  | fuel + 1, working, appendix =>
    match working with
    | [] => pure (appendix, [])
    | w :: rest =>
      if w.c ∈ cue then cueLoopF cue blockS fuel rest (appendix ++ [w])
      else if 0 < pyCount ((working.take blockS.length).map (·.c)) blockS then
        pure (appendix, working)
      else throw .input

/-- The per-field value of `parse_signal` (spectrum.py:419-456): a `None`
cue takes the working slice verbatim; otherwise the validation loop runs
(fuel `length + 1` always suffices: each step consumes one character). -/
def fieldValue (cueOpt : Option (List Char)) (blockS : List Char)
    (working : Block) : Except PErr Block :=
  match cueOpt with
  | none => pure working
  | some cue => do
    let p ← cueLoopF cue blockS (working.chars.length + 1) working.chars []
    pure ⟨p.1, false, some false⟩

/-- The constants walk of `Spectrum.parse_signal` (spectrum.py:392-459):
for each constant, bound the slice at the next constant's first occurrence,
locate the current constant's last occurrence inside it by searching the
reversed slice for the reversed constant, left-trim the working slice, and
validate it against the current variable's cue.  The source reads
`len(appendix)` even when the working slice was empty, which uses the
previous iteration's binding — or raises `NameError` on the first
iteration (modelled `.value`); the absent-key and absent-occurrence cases
model Python's `KeyError` and `ValueError`. -/
def parseSignalGo (hyp : List Block) :
    List (List Char) → Block → List Block → Option Nat →
      Except PErr (List Block)
  | [], _, vars, _ => pure vars
  | blockS :: rest, signal, vars, lastAppLen => do
    let tempBlockI ←
      match pyFind (bText signal) blockS with
      | some v => pure v
      | none => throw .value
    let sliced ←
      match rest.head? with
      | some nextC =>
        match pyFindFrom (bText signal) nextC (tempBlockI + blockS.length) with
        | some j => pure (signal.sliceTo j)
        | none => throw .value
      | none => pure (signal.sliceTo signal.chars.length)
    let slicedRev := sliced.rev
    let blockI ←
      match pyFind (bText slicedRev) blockS.reverse with
      | some v => pure v
      | none => throw .value
    let trueBlockI := slicedRev.chars.length - blockI - blockS.length
    let working := (signal.sliceTo trueBlockI).lstrip
    if working.chars ≠ [] then do
      let varB ←
        match (variablesOf hyp).get? vars.length with
        | some v => pure v
        | none => throw .index
      let cueOpt ←
        match cuesGet (bText varB) with
        | some co => pure co
        | none => throw .value
      let appendix ← fieldValue cueOpt blockS working
      parseSignalGo hyp rest
        (signal.sliceFrom (appendix.chars.length + blockS.length))
        (vars ++ [appendix]) (some appendix.chars.length)
    else
      match lastAppLen with
      | none => throw .value
      | some n =>
        parseSignalGo hyp rest (signal.sliceFrom (n + blockS.length)) vars
          (some n)

/-- `Spectrum.parse_signal` (spectrum.py:377-463): a constants-free
hypothesis with variables takes the whole record as the single variable;
otherwise walk the constants.  The produced `Signal` is modelled as the
extracted variable blocks paired with the hypothesis. -/
def parseSignal (hyp : List Block) (signal : Block) :
    Except PErr (List Block × List Block) :=
  if (variablesOf hyp).length ≠ 0 ∧ constantsOf hyp = [] then
    pure ([signal], hyp)
  else
    (parseSignalGo hyp (constantsStr hyp) signal [] none).map (fun vs => (vs, hyp))

/-! ## Predicates and fixtures used by the claim theorems -/

/-- Every pair of consecutive blocks differs in its `variable` flag (the
property C6 asserts of built hypotheses). -/
def adjDiffer : List Block → Bool
  | x :: y :: rest => (decide (¬ x.var = y.var)) && adjDiffer (y :: rest)
  | _ => true

/-- No three consecutive blocks share one `variable` flag. -/
def noThreeRun : List Block → Bool
  | x :: y :: z :: rest =>
    (decide (¬ (x.var = y.var ∧ y.var = z.var))) && noThreeRun (y :: z :: rest)
  | _ => true

/-- No two consecutive blocks are both variable. -/
def noAdjTrue : List Block → Bool
  | x :: y :: rest =>
    (decide (¬ (x.var = some true ∧ y.var = some true))) && noAdjTrue (y :: rest)
  | _ => true

/-- Every block carries a boolean `variable` flag (as all
formatter-produced blocks do; `None` exists only on splice markers). -/
def allBoolVar (l : List Block) : Bool := l.all (fun b => ¬ b.var = none)

/-- Modelled from the spec: the total penalty of a hypothesis against a
record span — the sum over its constant spans of (occurrence count minus
one), counted in the progressively clipped text; `none` when some constant
never occurs. -/
def totalPenaltySpec (hyp : List Block) (sig : Block) : Option Int :=
  (scanCountsGo sig (constantsStr hyp) []).map
    (fun counts => (counts.map (fun c => (c : Int) - 1)).sum)

/-- C2 fixture: a group of two hypotheses sharing their first constant. -/
def c2H0 : List Block := [mkStr "ab", mkStr "c"]

/-- C2 fixture: the second hypothesis of the group. -/
def c2H1 : List Block := [mkStr "ab", mkStr "d"]

/-- C2 fixture: the record span scanned against the group. -/
def c2Sig : Block := mkRaw "ab c ab ccc d"

/-- C1 fixture: a signal section with five pieces (three obligatory, two
optional), the empty blocks being the piece separators that `_parse`
emits at each `*`. -/
def c1Sec : List Block :=
  [mkStr "a", mkStr "", mkStr "b", mkStr "", mkStr "c",
   mkStr "", mkStr "d", mkStr "", mkStr "e"]

/-- C7 fixture: compile the template `h /%c Hz)/; /.` and feed the
already-extracted record span `1.2 Hz)` back through the record splitter,
projecting the resulting texts. -/
def c7Run : Except PErr (Except PErr (List (List Char))) :=
  (mkFormatter (mkRaw "h /%c Hz)/; /.")).map (fun f =>
    (parseSignalsSplit f (mkRaw "1.2 Hz)")).map (fun sigs => sigs.map bText))

/-- A region of the template is malformed at parse level (following the
spec's wording, with the code's refinements): it contains a variable
introducer whose case-folded two-character code is unrecognized, or whose
case-folded code occurs more than once in the whole raw template, or two
variable introducers with only the code character between them. -/
def RegionBad (rawT region : List Char) : Prop :=
  (∃ a c b, region = a ++ '%' :: c :: b ∧ inCues ['%', c.toLower] = false)
  ∨ (∃ a c b, region = a ++ '%' :: c :: b ∧ 1 < pyCount rawT ['%', c.toLower])
  ∨ (∃ a c b, region = a ++ '%' :: c :: '%' :: b)

/-- The template malformations after which compilation raises
`FormatError` (following the spec's list, with the code's refinements:
the whitespace check reads the character cyclically before the first
marker, and adjacency means a variable introducer directly after a
two-character code). -/
def TemplateBad (rawT : List Char) : Prop :=
  pyCount rawT ['/'] ≠ 3
  ∨ pyCount rawT ['*'] % 2 ≠ 0
  ∨ (∃ ri, pyFind rawT ['/'] = some ri
      ∧ ¬ rawT.get? (if ri = 0 then rawT.length - 1 else ri - 1) = some ' ')
  ∨ (∃ ri, pyFind rawT ['/'] = some ri ∧ RegionBad rawT (rawT.take ri))
  ∨ (∃ ri ri2, pyFind rawT ['/'] = some ri
      ∧ pyFindFrom rawT ['/'] (ri + 1) = some ri2
      ∧ RegionBad rawT ((rawT.take ri2).drop (ri + 1)))

/-- A region (as the parser sees it, a character list with provenance)
containing a variable introducer whose case-folded two-character code is
unrecognized, or whose case-folded code occurs more than once in the whole
raw template.  These are the two parse-level malformations that `_parse`
can never scan past without raising `FormatError`. -/
def BadKeyRegion (rawT : List Char) (region : List SChar) : Prop :=
  ∃ a p cc b, region = a ++ p :: cc :: b ∧ p.c = '%'
    ∧ (inCues ['%', cc.c.toLower] = false
        ∨ 1 < pyCount rawT ['%', cc.c.toLower])

/-- C3 counterexample fixture: a template whose middle hypothesis group
holds a zero-constant hypothesis (`%c` alone) while the fullest group
holds a constant-bearing one. -/
def c3Tpl : Block := mkRaw "h /*X**%c*/; /."

theorem isPref_iff (p s : List Char) : isPref p s = true ↔ ∃ t, s = p ++ t := by
  induction p generalizing s with
  | nil => simp [isPref]
  | cons a p ih =>
    cases s with
    | nil => simp [isPref]
    | cons b s =>
      simp only [isPref, Bool.and_eq_true, decide_eq_true_eq, ih]
      constructor
      · rintro ⟨rfl, t, rfl⟩
        exact ⟨t, rfl⟩
      · rintro ⟨t, h⟩
        cases h
        exact ⟨rfl, t, rfl⟩

theorem pyFind_decomp (s d : List Char) (i : Nat) (h : pyFind s d = some i) :
    s = s.take i ++ d ++ s.drop (i + d.length) := by
  induction s generalizing i with
  | nil =>
    simp only [pyFind] at h
    split at h
    · rename_i hd
      cases h
      simp [hd]
    · cases h
  | cons a s ih =>
    simp only [pyFind] at h
    split at h
    · rename_i hp
      cases h
      obtain ⟨t, ht⟩ := (isPref_iff d (a :: s)).mp hp
      rw [ht]
      simp [List.drop_left']
    · rcases Option.map_eq_some'.mp h with ⟨i0, hfind, rfl⟩
      have hrec := ih i0 hfind
      show a :: s = (a :: s).take (i0 + 1) ++ d ++ (a :: s).drop (i0 + 1 + d.length)
      have harith : i0 + 1 + d.length = (i0 + d.length) + 1 := by omega
      rw [List.take_succ_cons, harith, List.drop_succ_cons]
      exact congrArg (a :: ·) hrec

theorem pySplitF_ne_nil : ∀ (fuel : Nat) (s d : List Char),
    pySplitF fuel s d ≠ [] := by
  intro fuel s d
  cases fuel with
  | zero => simp [pySplitF]
  | succ n =>
    simp only [pySplitF]
    split
    · simp
    · split <;> simp

theorem pySplit_ne_nil (s d : List Char) : pySplit s d ≠ [] :=
  pySplitF_ne_nil _ s d

theorem pySplitF_join (d : List Char) (hd : d ≠ []) :
    ∀ (fuel : Nat) (s : List Char), s.length < fuel →
      joinD d (pySplitF fuel s d) = s := by
  intro fuel
  induction fuel with
  | zero => intro s hs; omega
  | succ n ih =>
    intro s hs
    simp only [pySplitF]
    rw [if_neg hd]
    split
    · simp [joinD]
    · rename_i i hfind
      have hdec := pyFind_decomp s d i hfind
      have hdl : 0 < d.length := List.length_pos.mpr hd
      have hsne : s ≠ [] := by
        intro hnil
        rw [hnil] at hfind
        simp [pyFind, hd] at hfind
      have hsl : 0 < s.length := List.length_pos.mpr hsne
      have hlt : (s.drop (i + d.length)).length < n := by
        simp only [List.length_drop]
        omega
      have hrec := ih (s.drop (i + d.length)) hlt
      cases hps : pySplitF n (s.drop (i + d.length)) d with
      | nil => exact absurd hps (pySplitF_ne_nil _ _ _)
      | cons g r =>
        rw [hps] at hrec
        simp only [joinD]
        conv_rhs => rw [hdec]
        rw [← hrec]

theorem pySplit_join (d : List Char) (hd : d ≠ []) :
    ∀ s, joinD d (pySplit s d) = s :=
  fun s => pySplitF_join d hd _ s (by omega)

/-- Split a mapped list along an append decomposition of its image. -/
theorem map_c_append (l : List SChar) (f g : List Char)
    (h : l.map (·.c) = f ++ g) :
    ∃ l₁ l₂, l = l₁ ++ l₂ ∧ l₁.map (·.c) = f ∧ l₂.map (·.c) = g := by
  induction f generalizing l with
  | nil => exact ⟨[], l, by simpa using h⟩
  | cons a f ih =>
    cases l with
    | nil => simp at h
    | cons x l =>
      simp only [List.map_cons, List.cons_append, List.cons.injEq] at h
      obtain ⟨l₁, l₂, rfl, h₁, h₂⟩ := ih l h.2
      exact ⟨x :: l₁, l₂, rfl, by simp [h.1, h₁], h₂⟩

theorem drop_len_map (pre : List SChar) (l : List Char) :
    (pre.map (·.c) ++ l).drop pre.length = l := by
  rw [← List.length_map pre (·.c)]
  exact List.drop_left _ _

theorem splitGo_frag (fs : List SChar) :
    ∀ (pre : List SChar) (rest : List SChar) (fr : List (List Char))
      (texts : List Block), fs ≠ [] →
    splitGo (fs ++ rest) ((pre.map (·.c) ++ fs.map (·.c)) :: fr) pre.length pre texts
      = splitGo rest fr 0 [] (texts ++ [⟨pre ++ fs, false, some false⟩]) := by
  induction fs with
  | nil => intro _ _ _ _ hne; exact absurd rfl hne
  | cons f fs ih =>
    intro pre rest fr texts _
    cases fs with
    | nil =>
      simp only [List.singleton_append, splitGo, drop_len_map, List.map_cons,
        List.map_nil]
      simp
    | cons f' fs' =>
      have hstep :
          splitGo ((f :: f' :: fs') ++ rest)
              ((pre.map (·.c) ++ (f :: f' :: fs').map (·.c)) :: fr) pre.length pre texts
            = splitGo ((f' :: fs') ++ rest)
              ((pre.map (·.c) ++ (f :: f' :: fs').map (·.c)) :: fr)
              (pre.length + 1) (pre ++ [f]) texts := by
        simp only [List.cons_append, splitGo, drop_len_map, List.map_cons]
        have hlen : pre.length + 1
            ≠ (pre.map (·.c) ++ (f.c :: f'.c :: fs'.map (·.c))).length := by
          simp
        simp [hlen]
      rw [hstep]
      have harr : pre.map (·.c) ++ (f :: f' :: fs').map (·.c)
          = (pre ++ [f]).map (·.c) ++ (f' :: fs').map (·.c) := by simp
      rw [harr]
      have hlen1 : pre.length + 1 = (pre ++ [f]).length := by simp
      rw [hlen1, ih (pre ++ [f]) rest fr texts (by simp)]
      simp

theorem splitGo_skip (js : List SChar) :
    ∀ (rest : List SChar) (gc : Char) (g' : List Char) (fr : List (List Char))
      (texts : List Block),
    (∀ ch ∈ js, ch.c ≠ gc) →
    splitGo (js ++ rest) ((gc :: g') :: fr) 0 [] texts
      = splitGo rest ((gc :: g') :: fr) 0 [] texts := by
  induction js with
  | nil => intro _ _ _ _ _ _; rfl
  | cons ch js ih =>
    intro rest gc g' fr texts hni
    simp only [List.cons_append, splitGo, List.drop_zero]
    rw [if_neg (hni ch (by simp))]
    exact ih rest gc g' fr texts (fun x hx => hni x (by simp [hx]))

theorem splitGo_clean (d : List Char) :
    ∀ (frags : List (List Char)) (chars : List SChar) (texts : List Block),
    chars.map (·.c) = joinD d frags →
    (∀ f ∈ frags, f ≠ []) →
    (∀ g ∈ frags.tail, ∀ c, g.head? = some c → c ∉ d) →
    ∃ bs, splitGo chars frags 0 [] texts = .ok (texts ++ bs)
      ∧ bs.map bText = frags := by
  intro frags
  induction frags with
  | nil =>
    intro chars texts hj _ _
    simp only [joinD] at hj
    rw [List.map_eq_nil] at hj
    subst hj
    exact ⟨[], by simp [splitGo]⟩
  | cons f frags ih =>
    intro chars texts hj hne hhd
    cases frags with
    | nil =>
      simp only [joinD] at hj
      have hcne : chars ≠ [] := by
        intro hnil
        rw [hnil] at hj
        exact hne f (by simp) hj.symm
      refine ⟨[⟨chars, false, some false⟩], ?_, by simp [bText, hj]⟩
      have := splitGo_frag chars ([] : List SChar) [] [] texts hcne
      simpa [hj] using this
    | cons g frags' =>
      simp only [joinD] at hj
      rw [List.append_assoc] at hj
      obtain ⟨A, l₂, rfl, hA, hl₂⟩ := map_c_append chars f (d ++ joinD d (g :: frags')) hj
      obtain ⟨B, C, rfl, hB, hC⟩ := map_c_append l₂ d (joinD d (g :: frags')) hl₂
      obtain ⟨gc, g', rfl⟩ : ∃ gc g', g = gc :: g' := by
        cases g with
        | nil => exact absurd rfl (hne [] (by simp))
        | cons a b => exact ⟨a, b, rfl⟩
      have hAne : A ≠ [] := by
        intro hnil
        rw [hnil] at hA
        exact hne f (by simp) hA.symm
      have hstep1 : splitGo (A ++ (B ++ C)) (f :: (gc :: g') :: frags') 0 [] texts
          = splitGo (B ++ C) ((gc :: g') :: frags') 0 []
              (texts ++ [⟨A, false, some false⟩]) := by
        have := splitGo_frag A ([] : List SChar) (B ++ C) ((gc :: g') :: frags') texts hAne
        simpa [hA] using this
      have hgc : gc ∉ d := hhd (gc :: g') (by simp) gc rfl
      have hstep2 : splitGo (B ++ C) ((gc :: g') :: frags') 0 []
            (texts ++ [⟨A, false, some false⟩])
          = splitGo C ((gc :: g') :: frags') 0 []
              (texts ++ [⟨A, false, some false⟩]) := by
        refine splitGo_skip B C gc g' frags' _ ?_
        intro ch hch heq
        apply hgc
        rw [← heq, ← hB]
        exact List.mem_map_of_mem _ hch
      obtain ⟨bs', hrun, hmap⟩ := ih C (texts ++ [⟨A, false, some false⟩]) hC
        (fun x hx => hne x (by simp [hx]))
        (fun x hx => hhd x (by simp at hx ⊢; exact Or.inr hx))
      refine ⟨⟨A, false, some false⟩ :: bs', ?_, ?_⟩
      · rw [hstep1, hstep2, hrun]
        simp
      · simp [bText, hA, hmap]

/-- C9 is refuted as stated: splitting a span whose text ends with an
occurrence of the delimiter does not succeed with an empty final fragment;
the re-association loop raises `IndexError` on the empty fragment
(block.py:137 accesses `split_list[j][k]` on the empty string). -/
theorem c9_counterexample :
    pySplit (bText (mkRaw "ab;")) (bText (mkRaw ";")) = [['a', 'b'], []]
      ∧ (mkRaw "ab;").split (mkRaw ";") = .error .index := by
  constructor <;> rfl

/-- C9 (amended): for every span and non-empty delimiter such that every
delimiter-separated fragment of the span's text is non-empty and no
fragment after the first starts with a character occurring in the
delimiter, `Block.split` returns without raising a list of spans whose
character texts are exactly the delimiter-separated fragments, in order.
(When the span's text ends with the delimiter, the final fragment is empty
and the operation instead raises `IndexError`.) -/
theorem c9_split_texts (b delim : Block)
    (hd : bText delim ≠ [])
    (hne : ∀ f ∈ pySplit (bText b) (bText delim), f ≠ [])
    (hhd : ∀ g ∈ (pySplit (bText b) (bText delim)).tail, ∀ c,
      g.head? = some c → c ∉ bText delim) :
    ∃ bs, b.split delim = .ok bs
      ∧ bs.map bText = pySplit (bText b) (bText delim) := by
  obtain ⟨bs, hrun, hmap⟩ := splitGo_clean (bText delim)
    (pySplit (bText b) (bText delim)) b.chars []
    ((pySplit_join (bText delim) hd (bText b)).symm ▸ rfl) hne hhd
  refine ⟨bs, ?_, hmap⟩
  rw [Block.split, if_neg hd, hrun]
  simp

/-- Witness for C9 (amended) at the concrete input `"a;b"` split on `";"`. -/
theorem c9_split_texts_witness :
    ∃ bs, (mkRaw "a;b").split (mkRaw ";") = .ok bs
      ∧ bs.map bText = pySplit (bText (mkRaw "a;b")) (bText (mkRaw ";")) :=
  c9_split_texts (mkRaw "a;b") (mkRaw ";") (by decide) (by decide) (by decide)

/-- C10: concatenation preserves the characters of both operands in order,
but the result always carries `optional = False` and `variable = False`,
regardless of the operands' flags (block.py:165-173 builds a plain
`Block(new_chars)`). -/
theorem c10_add_preserves_chars_resets_flags (a b : Block) :
    (a.add b).chars = a.chars ++ b.chars
      ∧ (a.add b).optional = false ∧ (a.add b).var = some false :=
  ⟨rfl, rfl, rfl⟩

/-- C2: the claim fails on the code.  For the group `[c2H0, c2H1]` and the
record `c2Sig` no hypothesis is exact and none is invalid; the total
penalties are 4 for `c2H0` and 1 for `c2H1`, so the claim requires `c2H1`,
yet the matcher returns `c2H0`: `scores.append(score)` sits inside the
per-count loop (spectrum.py:348-350), so `scores.index(min(_scores))` is a
position in the flattened per-count list, not a hypothesis index. -/
theorem c2_scores_misalignment :
    matchHypothesis [[c2H0, c2H1]] c2Sig = .ok c2H0
      ∧ totalPenaltySpec c2H0 c2Sig = some 4
      ∧ totalPenaltySpec c2H1 c2Sig = some 1
      ∧ c2H0 ≠ c2H1 := by
  refine ⟨by rfl, by rfl, by rfl, by decide⟩

/-- C7: the claim fails on the code.  The record `1.2 Hz)` contains no
occurrence of the effective delimiter `" Hz); "`, yet feeding it back
through the record splitter yields the span `1.2 Hz) Hz)`: the reattach
guard compares the multi-character final constant `" Hz)"` with the
record's final single character (spectrum.py:158-163), so the constant is
appended although the record already ends with it. -/
theorem c7_resplit_extends_record :
    pyCount (bText (mkRaw "1.2 Hz)")) " Hz); ".toList = 0
      ∧ c7Run = .ok (.ok ["1.2 Hz) Hz)".toList])
      ∧ "1.2 Hz) Hz)".toList ≠ "1.2 Hz)".toList := by
  refine ⟨by rfl, by rfl, by decide⟩

/-- C6 is refuted as stated: compiling `h /a*x*b*y*c/, /.` and taking the
hypothesis of the least-complete group (no optional pieces) yields the
section list `[ab, c]` — two consecutive spans whose `variable` flags are
both false, because the splice pass merges pairwise left-to-right and the
marker left at a merged-away position blocks the following merge. -/
theorem c6_counterexample :
    (mkFormatter (mkRaw "h /a*x*b*y*c/, /.")).toOption.map
        (fun f => adjDiffer ((f.hypotheses.getD 2 []).getD 0 []))
      = some false
      ∧ (mkFormatter (mkRaw "h /a*x*b*y*c/, /.")).toOption.map
          (fun f => ((f.hypotheses.getD 2 []).getD 0 []).map
            (fun b => (bText b, b.var)))
        = some [("ab".toList, some false), ("c".toList, some false)] := by
  refine ⟨by rfl, by rfl⟩

theorem groupScan_ret_of_noconst (sig : Block) (h : List Block)
    (hconst : constantsOf h = []) :
    ∀ (pre : List (List Block)) (post : List (List Block)) (acc : List Int),
      ∃ h2, groupScan sig (pre ++ h :: post) acc = .ret h2 ∧ h2 ∈ pre ++ [h] := by
  intro pre
  induction pre with
  | nil =>
    intro post acc
    refine ⟨h, ?_, by simp⟩
    simp [groupScan, scanHyp, hconst]
  | cons p pre ih =>
    intro post acc
    simp only [List.cons_append, groupScan]
    cases hscan : scanHyp p sig with
    | ret => exact ⟨p, rfl, by simp⟩
    | scores contrib =>
      obtain ⟨h2, hrun, hmem⟩ := ih post (acc ++ contrib)
      refine ⟨h2, hrun, ?_⟩
      simp only [List.cons_append, List.mem_cons]
      simp only [List.mem_append] at hmem ⊢
      tauto

/-- C3 is refuted as stated: compiling `h /*X**%c*/; /.` yields the
hypothesis groups `[[X,%c]], [[X],[%c]], [[]]` with the zero-constant
hypothesis `[%c]` in the middle group, yet matching the record `X` returns
the constant-bearing exact match `[X, %c]` of the fuller group — the
zero-constant hypothesis is not returned before every hypothesis that
requires comparing constants against the record text. -/
theorem c3_counterexample :
    (mkFormatter c3Tpl).toOption.map (fun f =>
      (decide (constantsOf ((f.hypotheses.getD 1 []).getD 1 []) = []),
       (matchHypothesis f.hypotheses (mkRaw "X")).toOption.map (fun hyp =>
         (decide (hyp = (f.hypotheses.getD 1 []).getD 1 []),
          decide (constantsOf hyp = []),
          hyp.map (fun b => (bText b, b.var))))))
      = some (true, some (false, false,
          [(['X'], some false), (['%', 'c'], some true)])) := by
  rfl

/-- C3 (amended): a hypothesis with zero constant spans is accepted by the
per-hypothesis scan unconditionally — `scanHyp` returns it with no
comparison against the record text — and the group scan never advances
past it: whenever every fuller group falls through (each yields only
negative score entries), the matcher returns the zero-constant hypothesis
or an earlier member of its own group.  It is not globally returned
before every constant-bearing hypothesis: an exact match in a fuller
group wins. -/
theorem c3_no_constants_matches_unconditionally (sig : Block)
    (gs : List (List (List Block)))
    (pre post : List (List Block)) (h : List Block)
    (rest : List (List (List Block)))
    (hconst : constantsOf h = [])
    (hskip : ∀ g ∈ gs, ∃ s, groupScan sig g [] = .scores s
        ∧ s.filter (0 ≤ ·) = []) :
    scanHyp h sig = .ret
      ∧ ∃ h2, matchHypothesis (gs ++ (pre ++ h :: post) :: rest) sig = .ok h2
          ∧ h2 ∈ pre ++ [h] := by
  constructor
  · simp [scanHyp, hconst]
  · induction gs with
    | nil =>
      obtain ⟨h2, hrun, hmem⟩ := groupScan_ret_of_noconst sig h hconst pre post []
      refine ⟨h2, ?_, hmem⟩
      simp [matchHypothesis, hrun]
    | cons g gs' ih =>
      obtain ⟨s, hg, hfil⟩ := hskip g (by simp)
      obtain ⟨h2, hrun, hmem⟩ := ih (fun g2 hg2 => hskip g2 (by simp [hg2]))
      refine ⟨h2, ?_, hmem⟩
      have hstep : matchHypothesis ((g :: gs') ++ (pre ++ h :: post) :: rest) sig
          = matchHypothesis (gs' ++ (pre ++ h :: post) :: rest) sig := by
        simp only [List.cons_append, matchHypothesis]
        rw [hg]
        simp [hfil]
      rw [hstep]
      exact hrun

/-- Witness for C3 (amended): one fuller group whose sole hypothesis is
invalidated (its constant `w` is absent from the record), then a group
holding the zero-constant hypothesis behind a constant-bearing one, with
a further group behind. -/
theorem c3_no_constants_matches_unconditionally_witness :
    scanHyp [mkStr "%c" false (some true)] (mkRaw "x") = .ret
      ∧ ∃ h2, matchHypothesis
          ([[[mkStr "w"]]]
            ++ ([[mkStr "q"]] ++ [mkStr "%c" false (some true)] :: [])
            :: [[[mkStr "z"]]]) (mkRaw "x") = .ok h2
          ∧ h2 ∈ [[mkStr "q"]] ++ [[mkStr "%c" false (some true)]] :=
  c3_no_constants_matches_unconditionally (mkRaw "x") [[[mkStr "w"]]]
    [[mkStr "q"]] [] [mkStr "%c" false (some true)] [[[mkStr "z"]]] (by rfl)
    (by
      intro g hg
      rw [List.mem_singleton] at hg
      subst hg
      exact ⟨[-1], by decide, by decide⟩)

theorem pyCountF_pos_iff :
    ∀ (fuel : Nat) (hay pat : List Char), hay.length < fuel →
      (0 < pyCountF fuel hay pat ↔ (pyFind hay pat).isSome) := by
  intro fuel
  induction fuel with
  | zero => intro hay pat h; omega
  | succ n ih =>
    intro hay pat hlen
    cases hay with
    | nil =>
      simp only [pyCountF, pyFind]
      split <;> simp
    | cons a rest =>
      simp only [pyCountF, pyFind]
      split
      · rename_i hp
        subst hp
        simp [isPref]
      · split
        · simp
        · have := ih rest pat (by simp at hlen ⊢; omega)
          simpa using this

theorem pyFind_of_decomp (pat : List Char) :
    ∀ (a b : List Char), (pyFind (a ++ pat ++ b) pat).isSome := by
  intro a
  induction a with
  | nil =>
    intro b
    cases pat with
    | nil =>
      cases b <;> simp [pyFind, isPref]
    | cons p ps =>
      have hp : isPref (p :: ps) (p :: (ps ++ b)) = true :=
        (isPref_iff _ _).mpr ⟨b, by simp⟩
      simp [pyFind, hp]
  | cons x a ih =>
    intro b
    simp only [List.cons_append, pyFind]
    split
    · simp
    · simpa using ih b

theorem pyCount_pos_iff (hay pat : List Char) :
    0 < pyCount hay pat ↔ ∃ a b, hay = a ++ pat ++ b := by
  rw [pyCount, pyCountF_pos_iff (hay.length + 1) hay pat (by omega)]
  constructor
  · intro hsome
    cases hfind : pyFind hay pat with
    | none => rw [hfind] at hsome; simp at hsome
    | some i =>
      exact ⟨hay.take i, hay.drop (i + pat.length), pyFind_decomp hay pat i hfind⟩
  · rintro ⟨a, b, rfl⟩
    exact pyFind_of_decomp pat a b

/-- Occurrence of the constant inside the length-bounded window
(`block in working_slice[:len(block)]`, spectrum.py:434) is exactly the
constant standing at the current position. -/
theorem count_window_iff (rest : List SChar) (blockS : List Char) :
    (0 < pyCount ((rest.take blockS.length).map (·.c)) blockS)
      ↔ isPref blockS (rest.map (·.c)) = true := by
  rw [pyCount_pos_iff, isPref_iff]
  constructor
  · rintro ⟨a, b, hab⟩
    have hwin : (rest.take blockS.length).map (·.c)
        = (rest.map (·.c)).take blockS.length := List.map_take _ _ _
    rw [hwin] at hab
    have hlen : ((rest.map (·.c)).take blockS.length).length ≤ blockS.length := by
      simp
    have hablen : ((rest.map (·.c)).take blockS.length).length
        = a.length + blockS.length + b.length := by
      rw [hab]; simp; omega
    have ha : a = [] := by
      have := List.length_eq_zero.mp (show a.length = 0 by omega)
      exact this
    have hb : b = [] := by
      exact List.length_eq_zero.mp (by omega)
    subst ha; subst hb
    simp only [List.nil_append, List.append_nil] at hab
    have htake : (rest.map (·.c)).take blockS.length = blockS := hab
    refine ⟨(rest.map (·.c)).drop blockS.length, ?_⟩
    conv_lhs => rw [← List.take_append_drop blockS.length (rest.map (·.c))]
    rw [htake]
  · rintro ⟨t, ht⟩
    refine ⟨[], [], ?_⟩
    rw [List.map_take, ht, List.take_left]
    simp

theorem cueLoopF_run (cue blockS : List Char) :
    ∀ (working : List SChar) (fuel : Nat), working.length < fuel →
      ∀ (appendix : List SChar),
      cueLoopF cue blockS fuel working appendix =
        (if working.dropWhile (fun w => w.c ∈ cue) = [] then
          .ok (appendix ++ working.takeWhile (fun w => w.c ∈ cue), [])
        else if 0 < pyCount
            (((working.dropWhile (fun w => w.c ∈ cue)).take blockS.length).map
              (·.c)) blockS then
          .ok (appendix ++ working.takeWhile (fun w => w.c ∈ cue),
            working.dropWhile (fun w => w.c ∈ cue))
        else .error .input) := by
  intro working
  induction working with
  | nil =>
    intro fuel hf appendix
    cases fuel with
    | zero => omega
    | succ n =>
      simp [cueLoopF]
      rfl
  | cons w rest ih =>
    intro fuel hf appendix
    cases fuel with
    | zero => omega
    | succ n =>
      simp only [cueLoopF]
      by_cases hw : w.c ∈ cue
      · rw [if_pos hw]
        rw [ih n (by simp at hf ⊢; omega) (appendix ++ [w])]
        simp [List.dropWhile_cons, List.takeWhile_cons, hw]
      · rw [if_neg hw]
        simp only [List.dropWhile_cons, List.takeWhile_cons, hw, decide_False,
          Bool.false_eq_true, if_false, reduceCtorEq, List.append_nil]
        split <;> rfl

/-- C5: character-class validation during field extraction.  A field whose
code has no defined class takes the working slice verbatim; with a class,
the loop consumes exactly the accepted prefix and then either ends cleanly
(slice exhausted), ends the field because the current constant stands at
the first rejected character, or raises `InputError` — so a rejected
character that is not the start of a constant occurrence always fails.
The window test is exactly "the constant stands at this position". -/
theorem c5_cue_class_validation (cue blockS : List Char) (working : Block) :
    fieldValue none blockS working = .ok working
    ∧ fieldValue (some cue) blockS working =
        (if working.chars.dropWhile (fun w => w.c ∈ cue) = [] then
          .ok ⟨working.chars.takeWhile (fun w => w.c ∈ cue), false, some false⟩
        else if isPref blockS
            ((working.chars.dropWhile (fun w => w.c ∈ cue)).map (·.c)) then
          .ok ⟨working.chars.takeWhile (fun w => w.c ∈ cue), false, some false⟩
        else .error .input) := by
  refine ⟨rfl, ?_⟩
  show (do
    let p ← cueLoopF cue blockS (working.chars.length + 1) working.chars []
    pure (⟨p.1, false, some false⟩ : Block)) = _
  rw [cueLoopF_run cue blockS working.chars (working.chars.length + 1)
    (by omega) []]
  by_cases h1 : working.chars.dropWhile (fun w => w.c ∈ cue) = []
  · simp [h1]
  · rw [if_neg h1, if_neg h1]
    by_cases h2 : 0 < pyCount
        (((working.chars.dropWhile (fun w => w.c ∈ cue)).take blockS.length).map
          (·.c)) blockS
    · have h3 := (count_window_iff _ blockS).mp h2
      rw [if_pos h2, if_pos h3]
      simp
    · have h3 : ¬ isPref blockS
          ((working.chars.dropWhile (fun w => w.c ∈ cue)).map (·.c)) = true :=
        fun hh => h2 ((count_window_iff _ blockS).mpr hh)
      rw [if_neg h2, if_neg h3]
      simp

theorem noThreeRun_tail (x : Block) (l : List Block)
    (h : noThreeRun (x :: l) = true) : noThreeRun l = true := by
  match l with
  | [] => rfl
  | [y] => rfl
  | y :: z :: r =>
    simp only [noThreeRun, Bool.and_eq_true] at h
    exact h.2

theorem noAdjTrue_tail (x : Block) (l : List Block)
    (h : noAdjTrue (x :: l) = true) : noAdjTrue l = true := by
  match l with
  | [] => rfl
  | y :: r =>
    simp only [noAdjTrue, Bool.and_eq_true] at h
    exact h.2

theorem allBoolVar_tail (x : Block) (l : List Block)
    (h : allBoolVar (x :: l) = true) : allBoolVar l = true := by
  simp only [allBoolVar, List.all_cons, Bool.and_eq_true] at h
  exact h.2

theorem spliceBlocks_merge (x y : Block) (rest : List Block)
    (hxy : x.var = y.var) (hx : ¬ x.var = none) :
    spliceBlocks (x :: y :: rest) = x.add y :: spliceBlocks rest := by
  simp only [spliceBlocks, spliceMarked, if_pos hxy, List.filter_cons]
  have h1 : ¬ x.add y = markerB := by
    intro hh
    have : (x.add y).var = markerB.var := by rw [hh]
    simp [Block.add, markerB] at this
  have h2 : (markerB = markerB) := rfl
  simp [h1, h2]

theorem spliceBlocks_skip (x y : Block) (rest : List Block)
    (hxy : ¬ x.var = y.var) (hx : ¬ x.var = none) :
    spliceBlocks (x :: y :: rest) = x :: spliceBlocks (y :: rest) := by
  simp only [spliceBlocks, spliceMarked, if_neg hxy, List.filter_cons]
  have h1 : ¬ x = markerB := by
    intro hh
    rw [hh] at hx
    exact hx rfl
  simp [h1]

theorem splice_props : ∀ (n : Nat) (l : List Block), l.length ≤ n →
    allBoolVar l = true → noThreeRun l = true → noAdjTrue l = true →
    adjDiffer (spliceBlocks l) = true
      ∧ (spliceBlocks l).head?.map (·.var) = l.head?.map (·.var) := by
  intro n
  induction n with
  | zero =>
    intro l hl _ _ _
    have : l = [] := List.length_eq_zero.mp (Nat.le_zero.mp hl)
    subst this
    exact ⟨rfl, rfl⟩
  | succ n ih =>
    intro l hl hall h3 hadj
    match l with
    | [] => exact ⟨rfl, rfl⟩
    | [x] =>
      have hx : ¬ x.var = none := by
        simp only [allBoolVar, List.all_cons, List.all_nil, Bool.and_true,
          decide_eq_true_eq] at hall
        exact hall
      have hxm : ¬ x = markerB := by
        intro hh
        rw [hh] at hx
        exact hx rfl
      have : spliceBlocks [x] = [x] := by
        simp only [spliceBlocks, spliceMarked, List.filter_cons]
        simp [hxm]
      rw [this]
      exact ⟨rfl, rfl⟩
    | x :: y :: rest =>
      have hx : ¬ x.var = none := by
        simp only [allBoolVar, List.all_cons, Bool.and_eq_true,
          decide_eq_true_eq] at hall
        exact hall.1
      have hy : ¬ y.var = none := by
        simp only [allBoolVar, List.all_cons, Bool.and_eq_true,
          decide_eq_true_eq] at hall
        exact hall.2.1
      by_cases hxy : x.var = y.var
      · -- merge: both flags must be `some false`
        have hxf : x.var = some false := by
          simp only [noAdjTrue, Bool.and_eq_true, decide_eq_true_eq] at hadj
          cases hbx : x.var with
          | none => exact absurd hbx hx
          | some bx =>
            cases bx with
            | false => rfl
            | true =>
              exfalso
              exact hadj.1 ⟨hbx, by rw [← hxy, hbx]⟩
        rw [spliceBlocks_merge x y rest hxy hx]
        have hrest := ih rest (by simp at hl ⊢; omega)
          (allBoolVar_tail y _ (allBoolVar_tail x _ hall))
          (noThreeRun_tail y _ (noThreeRun_tail x _ h3))
          (noAdjTrue_tail y _ (noAdjTrue_tail x _ hadj))
        refine ⟨?_, by simp [Block.add, hxf]⟩
        match rest, hrest with
        | [], _ => rfl
        | z :: rest', hrest =>
          have hz : z.var = some true := by
            have hzb : ¬ z.var = none := by
              have := allBoolVar_tail y _ (allBoolVar_tail x _ hall)
              simp only [allBoolVar, List.all_cons, Bool.and_eq_true,
                decide_eq_true_eq] at this
              exact this.1
            have hzx : ¬ z.var = x.var := by
              simp only [noThreeRun, Bool.and_eq_true, decide_eq_true_eq] at h3
              intro hh
              exact h3.1 ⟨hxy, by rw [← hxy, hh]⟩
            cases hbz : z.var with
            | none => exact absurd hbz hzb
            | some bz =>
              cases bz with
              | true => rfl
              | false => exact absurd (by rw [hbz, hxf] : z.var = x.var) hzx
          cases hsp : spliceBlocks (z :: rest') with
          | nil => simp [adjDiffer]
          | cons b tl =>
            have hbv : b.var = z.var := by
              have := hrest.2
              rw [hsp] at this
              simp at this
              exact this
            simp only [adjDiffer, Bool.and_eq_true, decide_eq_true_eq]
            refine ⟨?_, by have := hrest.1; rw [hsp] at this; exact this⟩
            rw [hbv, hz]
            simp [Block.add]
      · -- no merge
        rw [spliceBlocks_skip x y rest hxy hx]
        have hrest := ih (y :: rest) (by simp at hl ⊢; omega)
          (allBoolVar_tail x _ hall) (noThreeRun_tail x _ h3)
          (noAdjTrue_tail x _ hadj)
        refine ⟨?_, by cases hsp : spliceBlocks (y :: rest) <;> rfl⟩
        cases hsp : spliceBlocks (y :: rest) with
        | nil =>
          have := hrest.2
          rw [hsp] at this
          simp at this
        | cons b tl =>
          have hbv : b.var = y.var := by
            have := hrest.2
            rw [hsp] at this
            simp at this
            exact this
          simp only [adjDiffer, Bool.and_eq_true, decide_eq_true_eq]
          refine ⟨by rw [hbv]; exact hxy,
            by have := hrest.1; rw [hsp] at this; exact this⟩

/-- C6 (amended): every hypothesis the builder produces is
`spliceBlocks (buildHyp pieces comb)` for one generated combination, and
the splice pass guarantees alternating `variable` flags *provided* the
pre-splice block list carries boolean flags, contains no run of three
equal-flagged consecutive spans, and no two adjacent variable spans — one
left-to-right pass only merges disjoint adjacent pairs (the marker left at
a merged position blocks the next merge) and resets a merged span's flags,
so longer runs and variable-variable pairs survive it. -/
theorem c6_splice_alternates :
    (∀ (sec : List Block) (n : Nat) (hyp : List Block),
      hyp ∈ buildGroup (toPieces sec) n →
      ∃ comb, comb ∈ findCombinations (oddIdx (toPieces sec)) n
        ∧ hyp = spliceBlocks (buildHyp (toPieces sec) comb))
    ∧ (∀ l : List Block, allBoolVar l = true → noThreeRun l = true →
        noAdjTrue l = true → adjDiffer (spliceBlocks l) = true) := by
  constructor
  · intro sec n hyp hmem
    simp only [buildGroup, List.mem_map] at hmem
    obtain ⟨comb, hin, heq⟩ := hmem
    exact ⟨comb, hin, heq.symm⟩
  · intro l hall h3 hadj
    exact (splice_props l.length l le_rfl hall h3 hadj).1

/-- Witness for C6 (amended) on the compiled template `h /x%cy/, /.`:
its sole hypothesis splices to alternating flags. -/
theorem c6_splice_alternates_witness :
    adjDiffer (spliceBlocks
      [mkStr "x", mkStr "%c" false (some true), mkStr "y"]) = true :=
  c6_splice_alternates.2 [mkStr "x", mkStr "%c" false (some true), mkStr "y"]
    (by decide) (by decide) (by decide)

/-! ## C4: which templates make compilation fail with `FormatError` -/

theorem pySubstr_single_iff (l : List Char) (c : Char) :
    pySubstr l [c] = true ↔ c ∈ l := by
  induction l with
  | nil => simp [pySubstr, pyFind]
  | cons a rest ih =>
    by_cases hac : c = a
    · subst hac
      simp [pySubstr, pyFind, isPref]
    · have hp : isPref [c] (a :: rest) = false := by
        simp [isPref]
        exact hac
      have hstep : pySubstr (a :: rest) [c] = pySubstr rest [c] := by
        simp [pySubstr, pyFind, hp]
      rw [hstep, ih]
      simp [List.mem_cons, hac]

theorem lastContainsPct_append_nopct (acc : List Block) (b : Block)
    (hb : '%' ∉ bText b) : lastContainsPct (acc ++ [b]) = false := by
  have hsub : pySubstr (bText b) ['%'] = false := by
    cases h : pySubstr (bText b) ['%'] with
    | false => rfl
    | true => exact absurd ((pySubstr_single_iff _ _).mp h) hb
  simp [lastContainsPct, List.getLast?_append, hsub]

theorem RegionBad_shift (rawT : List Char) (c : Char) (region : List Char)
    (h : RegionBad rawT region) : RegionBad rawT (c :: region) := by
  rcases h with ⟨a, cc, b, heq, hbad⟩ | ⟨a, cc, b, heq, hbad⟩ | ⟨a, cc, b, heq⟩
  · exact Or.inl ⟨c :: a, cc, b, by simp [heq], hbad⟩
  · exact Or.inr (Or.inl ⟨c :: a, cc, b, by simp [heq], hbad⟩)
  · exact Or.inr (Or.inr ⟨c :: a, cc, b, by simp [heq]⟩)

/-- Soundness of `_parse` error reporting: whenever the region scan raises
`FormatError`, the remaining input extended by the ghost of the already
consumed two characters of a pending variable code exhibits one of the
parse-level malformations.  `pre` tracks the consumed text. -/
theorem parseRegion_err_bad (rawT : List Char) :
    ∀ (n : Nat) (unparsed : List SChar), unparsed.length ≤ n →
      ∀ (pre : List Char) (text : List SChar) (opt : Bool) (acc : List Block),
      (∀ ch ∈ text, ch.c ≠ '%') →
      ((lastContainsPct acc = true ∧ text = []) →
        ∃ a cc, pre = a ++ ['%', cc]) →
      parseRegion rawT unparsed text opt acc = .error .format →
      RegionBad rawT (pre ++ unparsed.map (·.c)) := by
  intro n
  induction n with
  | zero =>
    intro unparsed hn pre text opt acc _ _ herr
    have : unparsed = [] := List.length_eq_zero.mp (Nat.le_zero.mp hn)
    subst this
    simp only [parseRegion] at herr
    split at herr <;> cases herr
  | succ n ih =>
    intro unparsed hn pre text opt acc htext hlast herr
    cases unparsed with
    | nil =>
      simp only [parseRegion] at herr
      split at herr <;> cases herr
    | cons ch rest =>
      simp only [parseRegion] at herr
      by_cases hns : ch.c ≠ '%' ∧ ch.c ≠ '*'
      · rw [if_pos hns] at herr
        have := ih rest (by simp at hn ⊢; omega) (pre ++ [ch.c]) (text ++ [ch])
          opt acc
          (by intro x hx
              rcases List.mem_append.mp hx with h | h
              · exact htext x h
              · simp at h; rw [h]; exact hns.1)
          (by rintro ⟨hl, htx⟩; exact absurd htx (by simp)) herr
        simpa using this
      · rw [if_neg hns] at herr
        by_cases hpct : ch.c = '%'
        · rw [if_pos hpct] at herr
          cases rest with
          | nil => simp at herr
          | cons c2 rest2 =>
            simp only [] at herr
            by_cases hdup : 1 < pyCount rawT ['%', c2.c.toLower]
            · rw [if_pos hdup] at herr
              exact Or.inr (Or.inl ⟨pre, c2.c, rest2.map (·.c), by simp [hpct], hdup⟩)
            · rw [if_neg hdup] at herr
              set acc1 := if text ≠ [] then acc ++ [⟨text, opt, some false⟩] else acc
                with hacc1
              by_cases hadj : lastContainsPct acc1 = true
              · have htxe : text = [] := by
                  by_contra htne
                  have heq1 : acc1 = acc ++ [⟨text, opt, some false⟩] := by
                    rw [hacc1, if_pos htne]
                  rw [heq1] at hadj
                  have hz : lastContainsPct (acc ++ [⟨text, opt, some false⟩]) = false :=
                    lastContainsPct_append_nopct acc _
                      (by intro hmem
                          simp only [bText, List.mem_map] at hmem
                          obtain ⟨x, hx, hxc⟩ := hmem
                          exact htext x hx hxc)
                  rw [hz] at hadj
                  cases hadj
                have hacc : lastContainsPct acc = true := by
                  rw [hacc1, if_neg (by simp [htxe])] at hadj
                  exact hadj
                obtain ⟨a, cc, hpre⟩ := hlast ⟨hacc, htxe⟩
                refine Or.inr (Or.inr ⟨a, cc, c2.c :: rest2.map (·.c), ?_⟩)
                rw [hpre]
                simp [hpct]
              · rw [if_neg hadj] at herr
                by_cases hrec : ¬ inCues ['%', c2.c.toLower] = true
                · exact Or.inl ⟨pre, c2.c, rest2.map (·.c), by simp [hpct],
                    by simpa using hrec⟩
                · rw [if_neg hrec] at herr
                  have hbad := ih rest2 (by simp at hn ⊢; omega)
                    (pre ++ ['%', c2.c]) [] opt
                    (acc1 ++ [⟨strChars ['%', c2.c.toLower], opt, some true⟩])
                    (by intro x hx; cases hx)
                    (by rintro ⟨_, _⟩; exact ⟨pre, c2.c, by simp⟩) herr
                  have harr : pre ++ ['%', c2.c] ++ rest2.map (·.c)
                      = pre ++ (ch :: c2 :: rest2).map (·.c) := by
                    simp [hpct]
                  rw [harr] at hbad
                  exact hbad
        · rw [if_neg hpct] at herr
          set acc1 := if text ≠ [] then acc ++ [⟨text, opt, some false⟩] else acc
          have hbad := ih rest (by simp at hn ⊢; omega) (pre ++ [ch.c]) [] (!opt)
            (acc1 ++ [⟨[], !opt, some false⟩])
            (by intro x hx; cases hx)
            (by rintro ⟨hl, _⟩
                rw [lastContainsPct_append_nopct acc1 _ (by simp [bText])] at hl
                cases hl) herr
          simpa using hbad

theorem pyCountF_congr :
    ∀ (n : Nat) (hay pat : List Char), hay.length ≤ n →
      ∀ (f g : Nat), hay.length < f → hay.length < g →
      pyCountF f hay pat = pyCountF g hay pat := by
  intro n
  induction n with
  | zero =>
    intro hay pat hn f g hf hg
    have : hay = [] := List.length_eq_zero.mp (Nat.le_zero.mp hn)
    subst this
    cases f with
    | zero => omega
    | succ f =>
      cases g with
      | zero => omega
      | succ g => rfl
  | succ n ih =>
    intro hay pat hn f g hf hg
    cases hay with
    | nil =>
      cases f with
      | zero => omega
      | succ f =>
        cases g with
        | zero => omega
        | succ g => rfl
    | cons a rest =>
      cases f with
      | zero => omega
      | succ f =>
        cases g with
        | zero => omega
        | succ g =>
          simp only [pyCountF]
          by_cases hp : pat = []
          · rw [if_pos hp, if_pos hp]
          rw [if_neg hp, if_neg hp]
          by_cases hpr : isPref pat (a :: rest) = true
          · rw [if_pos hpr, if_pos hpr]
            have hlen : (rest.drop (pat.length - 1)).length ≤ n := by
              simp at hn ⊢
              omega
            rw [ih (rest.drop (pat.length - 1)) pat hlen f g
              (by simp at hf ⊢; omega) (by simp at hg ⊢; omega)]
          · rw [if_neg hpr, if_neg hpr]
            exact ih rest pat (by simp at hn ⊢; omega) f g
              (by simp at hf ⊢; omega) (by simp at hg ⊢; omega)

theorem pyCountF_stable (f : Nat) (hay pat : List Char) (hf : hay.length < f) :
    pyCountF f hay pat = pyCount hay pat :=
  pyCountF_congr hay.length hay pat le_rfl f (hay.length + 1) hf (by omega)

theorem pyCount_find_decomp :
    ∀ (n : Nat) (s d : List Char), s.length ≤ n → d ≠ [] →
      ∀ (i : Nat), pyFind s d = some i →
      pyCount s d = 1 + pyCount (s.drop (i + d.length)) d := by
  intro n
  induction n with
  | zero =>
    intro s d hn hd i hfind
    have : s = [] := List.length_eq_zero.mp (Nat.le_zero.mp hn)
    subst this
    simp [pyFind, hd] at hfind
  | succ n ih =>
    intro s d hn hd i hfind
    cases s with
    | nil => simp [pyFind, hd] at hfind
    | cons a rest =>
      simp only [pyFind] at hfind
      by_cases hpr : isPref d (a :: rest) = true
      · rw [if_pos hpr] at hfind
        cases hfind
        show pyCountF ((a :: rest).length + 1) (a :: rest) d = _
        simp only [pyCountF, if_neg hd, if_pos hpr]
        congr 1
        have hdl : 0 < d.length := List.length_pos.mpr hd
        have hdrop : rest.drop (d.length - 1) = (a :: rest).drop (0 + d.length) := by
          rw [Nat.zero_add]
          cases hdn : d.length with
          | zero => omega
          | succ m => simp
        rw [← hdrop]
        exact pyCountF_stable _ _ _ (by simp; omega)
      · rw [if_neg hpr] at hfind
        rcases Option.map_eq_some'.mp hfind with ⟨i0, hf0, rfl⟩
        have hrec := ih rest d (by simp at hn ⊢; omega) hd i0 hf0
        show pyCountF ((a :: rest).length + 1) (a :: rest) d = _
        simp only [pyCountF, if_neg hd, if_neg hpr]
        rw [pyCountF_stable _ _ _ (by simp), hrec]
        have : (a :: rest).drop (i0 + 1 + d.length) = rest.drop (i0 + d.length) := by
          have harith : i0 + 1 + d.length = (i0 + d.length) + 1 := by omega
          rw [harith, List.drop_succ_cons]
        rw [this]

theorem pyCount_single_pos_iff (s : List Char) (c : Char) :
    0 < pyCount s [c] ↔ c ∈ s := by
  rw [pyCount_pos_iff]
  constructor
  · rintro ⟨a, b, rfl⟩
    simp
  · intro hmem
    obtain ⟨p, q, rfl⟩ := List.append_of_mem hmem
    exact ⟨p, q, by simp⟩

/-- C4 is refuted as stated: in `h /%c*%i*/, /.` the variable items `%c`
and `%i` are adjacent with no separating constant span (only a zero-length
toggle cue between them), yet compilation succeeds — the adjacency check
looks at the last parsed item, which is the toggle cue. -/
theorem c4_counterexample :
    (mkFormatter (mkRaw "h /%c*%i*/, /.")).isOk = true
      ∧ (mkFormatter (mkRaw "h /%c*%i*/, /.")).toOption.map
          (fun f => f.signals.map (fun b => (bText b, b.optional, b.var)))
        = some [("%c".toList, false, some true), ([], true, some false),
            ("%i".toList, true, some true), ([], false, some false)] := by
  refine ⟨by rfl, by rfl⟩

/-- The region parser can never scan past an unrecognized or duplicated
case-folded code: whatever precedes it, the scan stops with `FormatError`.
Either the walk reaches the introducer itself (one of the three key checks
fires, each raising `FormatError`), or the introducer is consumed as the
second character of the preceding key — but then that key is `%%`, which
is itself unrecognized. -/
theorem parseRegion_bad_key (rawT : List Char) :
    ∀ (n : Nat) (region : List SChar), region.length ≤ n →
      BadKeyRegion rawT region →
      ∀ (text : List SChar) (opt : Bool) (acc : List Block),
        parseRegion rawT region text opt acc = .error .format := by
  intro n
  induction n with
  | zero =>
    intro region hlen hbad text opt acc
    obtain ⟨a, p, cc, b, heq, -, -⟩ := hbad
    have := congrArg List.length heq
    simp at this
    omega
  | succ m ih =>
    intro region hlen hbad text opt acc
    obtain ⟨a, p, cc, b, heq, hpc, hbadk⟩ := hbad
    cases region with
    | nil =>
      have := congrArg List.length heq
      simp at this
      omega
    | cons ch rest =>
      simp only [List.length_cons] at hlen
      rw [parseRegion]
      by_cases hplain : (¬ ch.c = '%' ∧ ¬ ch.c = '*')
      · rw [if_pos hplain]
        cases a with
        | nil =>
          simp only [List.nil_append, List.cons.injEq] at heq
          exact absurd (heq.1 ▸ hpc) hplain.1
        | cons a0 a1 =>
          simp only [List.cons_append, List.cons.injEq] at heq
          exact ih rest (by omega) ⟨a1, p, cc, b, heq.2, hpc, hbadk⟩ _ _ _
      · rw [if_neg hplain]
        by_cases hpct : ch.c = '%'
        · rw [if_pos hpct]
          cases a with
          | nil =>
            simp only [List.nil_append, List.cons.injEq] at heq
            rw [heq.2]
            simp only []
            by_cases hdup : 1 < pyCount rawT ['%', cc.c.toLower]
            · rw [if_pos hdup]
            · rw [if_neg hdup]
              rcases hbadk with hnc | hd
              · by_cases hlast : lastContainsPct
                    (if text ≠ [] then acc ++ [⟨text, opt, some false⟩] else acc)
                    = true
                · rw [if_pos hlast]
                · rw [if_neg hlast]
                  rw [if_pos (show ¬ inCues ['%', cc.c.toLower] = true by
                    simp [hnc])]
              · exact absurd hd hdup
          | cons a0 a1 =>
            simp only [List.cons_append, List.cons.injEq] at heq
            cases a1 with
            | nil =>
              rw [heq.2]
              simp only [List.nil_append]
              by_cases hdup : 1 < pyCount rawT ['%', p.c.toLower]
              · rw [if_pos hdup]
              · rw [if_neg hdup]
                by_cases hlast : lastContainsPct
                    (if text ≠ [] then acc ++ [⟨text, opt, some false⟩] else acc)
                    = true
                · rw [if_pos hlast]
                · rw [if_neg hlast]
                  have hnc : inCues ['%', p.c.toLower] = false := by
                    rw [hpc]
                    decide
                  rw [if_pos (show ¬ inCues ['%', p.c.toLower] = true by
                    simp [hnc])]
            | cons a10 a11 =>
              rw [heq.2]
              simp only [List.cons_append]
              by_cases hdup : 1 < pyCount rawT ['%', a10.c.toLower]
              · rw [if_pos hdup]
              · rw [if_neg hdup]
                by_cases hlast : lastContainsPct
                    (if text ≠ [] then acc ++ [⟨text, opt, some false⟩] else acc)
                    = true
                · rw [if_pos hlast]
                · rw [if_neg hlast]
                  by_cases hcue : ¬ inCues ['%', a10.c.toLower] = true
                  · rw [if_pos hcue]
                  · rw [if_neg hcue]
                    exact ih (a11 ++ p :: cc :: b) (by
                        have := congrArg List.length heq.2
                        simp at this
                        simp only [List.length_append, List.length_cons]
                        omega)
                      ⟨a11, p, cc, b, rfl, hpc, hbadk⟩ _ _ _
        · rw [if_neg hpct]
          cases a with
          | nil =>
            simp only [List.nil_append, List.cons.injEq] at heq
            exact absurd (heq.1 ▸ hpc) hpct
          | cons a0 a1 =>
            simp only [List.cons_append, List.cons.injEq] at heq
            exact ih rest (by omega) ⟨a1, p, cc, b, heq.2, hpc, hbadk⟩ _ _ _

/-- C4 (amended): compilation raises `FormatError` only on malformed
templates — a raised `FormatError` always exhibits a wrong marker count,
an odd toggle count, a non-space before the first marker (read cyclically
when the marker is first), or a parse-level malformation of the head or
signal region (unrecognized case-folded code, case-folded code occurring
more than once in the raw template, or a variable introducer directly
after a code, i.e. with no intervening item).  Conversely: the three
structural malformations each always raise `FormatError`; a region
holding an unrecognized or duplicated case-folded code always fails the
region parse with `FormatError`; and compilation itself raises
`FormatError` whenever the head region holds such a code, or the head
region parses and the signals region holds one.  The direction lost
against the original claim is code adjacency alone: two variable codes
separated by an optionality toggle compile (`c4_counterexample`). -/
theorem c4_format_error_characterization :
    (∀ raw : Block, mkFormatter raw = .error .format → TemplateBad (bText raw))
    ∧ (∀ raw : Block,
        (pyCount (bText raw) ['/'] ≠ 3 ∨ pyCount (bText raw) ['*'] % 2 ≠ 0
          ∨ (∃ ri, pyFind (bText raw) ['/'] = some ri
              ∧ ¬ (bText raw).get?
                  (if ri = 0 then (bText raw).length - 1 else ri - 1)
                = some ' ')) →
        mkFormatter raw = .error .format)
    ∧ (∀ (rawT : List Char) (region text : List SChar) (opt : Bool)
        (acc : List Block), BadKeyRegion rawT region →
        parseRegion rawT region text opt acc = .error .format)
    ∧ (∀ (raw : Block) (ri : Nat), pyFind (bText raw) ['/'] = some ri →
        (BadKeyRegion (bText raw) (raw.sliceTo ri).chars
          ∨ (∃ ri2 hs, pyFindFrom (bText raw) ['/'] (ri + 1) = some ri2
              ∧ parseRegion (bText raw) (raw.sliceTo ri).chars [] false []
                  = .ok hs
              ∧ BadKeyRegion (bText raw) (raw.slice (ri + 1) ri2).chars)) →
        mkFormatter raw = .error .format) := by
  refine ⟨?_, ?_, ?_, ?_⟩
  · intro raw herr
    rw [mkFormatter] at herr
    by_cases h1 : pyCount (bText raw) ['/'] ≠ 3
    · exact Or.inl h1
    rw [if_neg h1] at herr
    by_cases h2 : pyCount (bText raw) ['*'] % 2 ≠ 0
    · exact Or.inr (Or.inl h2)
    rw [if_neg h2] at herr
    cases hfind : pyFind (bText raw) ['/'] with
    | none =>
      rw [hfind] at herr
      simp only [] at herr
      exact PErr.noConfusion (Except.error.inj herr)
    | some ri =>
      rw [hfind] at herr
      simp only [] at herr
      cases hfind2 : pyFindFrom (bText raw) ['/'] (ri + 1) with
      | none =>
        rw [hfind2] at herr
        simp only [] at herr
        exact PErr.noConfusion (Except.error.inj herr)
      | some ri2 =>
        rw [hfind2] at herr
        simp only [] at herr
        cases hrev : pyFind (bText raw).reverse ['/'] with
        | none =>
          rw [hrev] at herr
          simp only [] at herr
          exact PErr.noConfusion (Except.error.inj herr)
        | some rrev =>
          rw [hrev] at herr
          simp only [] at herr
          by_cases hws : ¬ (bText raw).get?
              (if ri = 0 then (bText raw).length - 1 else ri - 1) = some ' '
          · exact Or.inr (Or.inr (Or.inl ⟨ri, hfind, hws⟩))
          rw [if_neg hws] at herr
          simp only [bind, Except.bind] at herr
          cases hh : parseRegion (bText raw) (raw.sliceTo ri).chars [] false []
            with
          | error e =>
            rw [hh] at herr
            cases herr
            have hbad := parseRegion_err_bad (bText raw)
              (raw.sliceTo ri).chars.length (raw.sliceTo ri).chars le_rfl []
              [] false [] (by intro x hx; cases hx) (by rintro ⟨hl, _⟩; cases hl)
              hh
            refine Or.inr (Or.inr (Or.inr (Or.inl ⟨ri, hfind, ?_⟩)))
            have : (raw.sliceTo ri).chars.map (·.c) = (bText raw).take ri := by
              simp [Block.sliceTo, bText, List.map_take]
            rw [this] at hbad
            simpa using hbad
          | ok hs =>
            rw [hh] at herr
            cases hg : parseRegion (bText raw) (raw.slice (ri + 1) ri2).chars
              [] false [] with
            | error e =>
              rw [hg] at herr
              cases herr
              have hbad := parseRegion_err_bad (bText raw)
                (raw.slice (ri + 1) ri2).chars.length
                (raw.slice (ri + 1) ri2).chars le_rfl []
                [] false [] (by intro x hx; cases hx)
                (by rintro ⟨hl, _⟩; cases hl) hg
              refine Or.inr (Or.inr (Or.inr (Or.inr ⟨ri, ri2, hfind, hfind2, ?_⟩)))
              have : (raw.slice (ri + 1) ri2).chars.map (·.c)
                  = ((bText raw).take ri2).drop (ri + 1) := by
                simp [Block.slice, bText, List.map_take, List.map_drop]
              rw [this] at hbad
              simpa using hbad
            | ok gs =>
              rw [hg] at herr
              cases herr
  · intro raw hbad
    rw [mkFormatter]
    by_cases h1 : pyCount (bText raw) ['/'] ≠ 3
    · rw [if_pos h1]; rfl
    rw [if_neg h1]
    by_cases h2 : pyCount (bText raw) ['*'] % 2 ≠ 0
    · rw [if_pos h2]; rfl
    rw [if_neg h2]
    rcases hbad with hbad | hbad | ⟨ri, hfind, hws⟩
    · exact absurd hbad h1
    · exact absurd hbad h2
    · rw [hfind]
      simp only []
      push_neg at h1
      have hcnt := pyCount_find_decomp (bText raw).length (bText raw) ['/']
        le_rfl (by simp) ri hfind
      simp only [List.length_singleton] at hcnt
      have hdrop2 : pyCount ((bText raw).drop (ri + 1)) ['/'] = 2 := by
        rw [h1] at hcnt
        omega
      have hpos2 : 0 < pyCountF ((bText raw).drop (ri + 1)).length.succ
          ((bText raw).drop (ri + 1)) ['/'] := by
        show 0 < pyCount ((bText raw).drop (ri + 1)) ['/']
        omega
      have hsome2 : (pyFind ((bText raw).drop (ri + 1)) ['/']).isSome :=
        (pyCountF_pos_iff _ _ _ (by omega)).mp hpos2
      obtain ⟨v, hv⟩ := Option.isSome_iff_exists.mp hsome2
      have hf2 : pyFindFrom (bText raw) ['/'] (ri + 1) = some (v + (ri + 1)) := by
        rw [pyFindFrom, hv]
        rfl
      rw [hf2]
      simp only []
      have hmem : '/' ∈ bText raw := (pyCount_single_pos_iff _ _).mp (by omega)
      have hmemrev : '/' ∈ (bText raw).reverse := List.mem_reverse.mpr hmem
      have hsub : pySubstr (bText raw).reverse ['/'] = true :=
        (pySubstr_single_iff _ _).mpr hmemrev
      rw [pySubstr] at hsub
      obtain ⟨rv, hrv⟩ := Option.isSome_iff_exists.mp hsub
      rw [hrv]
      simp only []
      rw [if_pos hws]
      rfl
  · intro rawT region text opt acc hbad
    exact parseRegion_bad_key rawT region.length region le_rfl hbad text opt acc
  · intro raw ri hfind hbad
    rw [mkFormatter]
    by_cases h1 : pyCount (bText raw) ['/'] ≠ 3
    · rw [if_pos h1]; rfl
    rw [if_neg h1]
    by_cases h2 : pyCount (bText raw) ['*'] % 2 ≠ 0
    · rw [if_pos h2]; rfl
    rw [if_neg h2]
    rw [hfind]
    simp only []
    push_neg at h1
    have hcnt := pyCount_find_decomp (bText raw).length (bText raw) ['/']
      le_rfl (by simp) ri hfind
    simp only [List.length_singleton] at hcnt
    have hdrop2 : pyCount ((bText raw).drop (ri + 1)) ['/'] = 2 := by
      rw [h1] at hcnt
      omega
    have hpos2 : 0 < pyCountF ((bText raw).drop (ri + 1)).length.succ
        ((bText raw).drop (ri + 1)) ['/'] := by
      show 0 < pyCount ((bText raw).drop (ri + 1)) ['/']
      omega
    have hsome2 : (pyFind ((bText raw).drop (ri + 1)) ['/']).isSome :=
      (pyCountF_pos_iff _ _ _ (by omega)).mp hpos2
    obtain ⟨v, hv⟩ := Option.isSome_iff_exists.mp hsome2
    have hf2 : pyFindFrom (bText raw) ['/'] (ri + 1) = some (v + (ri + 1)) := by
      rw [pyFindFrom, hv]
      rfl
    rw [hf2]
    simp only []
    have hmem : '/' ∈ bText raw := (pyCount_single_pos_iff _ _).mp (by omega)
    have hmemrev : '/' ∈ (bText raw).reverse := List.mem_reverse.mpr hmem
    have hsub : pySubstr (bText raw).reverse ['/'] = true :=
      (pySubstr_single_iff _ _).mpr hmemrev
    rw [pySubstr] at hsub
    obtain ⟨rv, hrv⟩ := Option.isSome_iff_exists.mp hsub
    rw [hrv]
    simp only []
    by_cases hws : ¬ (bText raw).get?
        (if ri = 0 then (bText raw).length - 1 else ri - 1) = some ' '
    · rw [if_pos hws]
      rfl
    · rw [if_neg hws]
      simp only [bind, Except.bind]
      rcases hbad with hhead | ⟨ri2, hs, hri2, hok, hsig⟩
      · rw [parseRegion_bad_key (bText raw) (raw.sliceTo ri).chars.length
          (raw.sliceTo ri).chars le_rfl hhead [] false []]
      · have hri2v : ri2 = v + (ri + 1) := by
          rw [hri2] at hf2
          exact Option.some.inj hf2
        rw [hok]
        simp only []
        rw [← hri2v]
        rw [parseRegion_bad_key (bText raw) (raw.slice (ri + 1) ri2).chars.length
          (raw.slice (ri + 1) ri2).chars le_rfl hsig [] false []]

theorem c4_format_error_characterization_witness :
    mkFormatter (mkRaw "abc") = .error .format
      ∧ mkFormatter (mkRaw "x %q /a/; /.") = .error .format :=
  ⟨c4_format_error_characterization.2.1 (mkRaw "abc") (Or.inl (by decide)),
   c4_format_error_characterization.2.2.2 (mkRaw "x %q /a/; /.") 5 (by decide)
     (Or.inl ⟨[⟨'x', true, 0⟩, ⟨' ', true, 1⟩], ⟨'%', true, 2⟩, ⟨'q', true, 3⟩,
       [⟨' ', true, 4⟩], by decide, by decide, Or.inl (by decide)⟩)⟩

/-! ## C8: termination of the complex record splitter -/

theorem containsB_eq_substr (text item : Block) :
    text.containsB item = pySubstr (bText text) (bText item) := by
  cases hc : text.containsB item with
  | true =>
    have : 0 < pyCount (bText text) (bText item) := by
      simpa [Block.containsB, Block.countStr] using hc
    rw [pyCount] at this
    have := (pyCountF_pos_iff _ _ _ (by omega)).mp this
    simp [pySubstr, this]
  | false =>
    have hnc : ¬ 0 < pyCount (bText text) (bText item) := by
      simpa [Block.containsB, Block.countStr] using hc
    cases hs : pySubstr (bText text) (bText item) with
    | false => rfl
    | true =>
      exfalso
      apply hnc
      rw [pyCount]
      exact (pyCountF_pos_iff _ _ _ (by omega)).mpr (by simpa [pySubstr] using hs)

theorem containsB_of_empty (text item : Block) (h : bText item = []) :
    text.containsB item = true := by
  rw [containsB_eq_substr, h]
  cases ht : bText text with
  | nil => simp [pySubstr, pyFind]
  | cons a rest => simp [pySubstr, pyFind, isPref]

theorem splitGo_ne_fuel :
    ∀ (chars : List SChar) (frags : List (List Char)) (k : Nat)
      (acc : List SChar) (texts : List Block),
      splitGo chars frags k acc texts ≠ .error .fuel := by
  intro chars
  induction chars with
  | nil => intro frags k acc texts h; cases h
  | cons ch rest ih =>
    intro frags k acc texts h
    cases frags with
    | nil => cases h
    | cons frag fr =>
      rw [splitGo] at h
      cases hdk : frag.drop k with
      | nil => rw [hdk] at h; cases h
      | cons fc tl =>
        rw [hdk] at h
        simp only [] at h
        by_cases hcc : ch.c = fc
        · rw [if_pos hcc] at h
          by_cases hk : k + 1 = frag.length
          · rw [if_pos hk] at h
            exact ih fr 0 [] _ h
          · rw [if_neg hk] at h
            exact ih (frag :: fr) (k + 1) (acc ++ [ch]) texts h
        · rw [if_neg hcc] at h
          exact ih (frag :: fr) k acc texts h

theorem split_ne_fuel (b d : Block) : b.split d ≠ .error .fuel := by
  rw [Block.split]
  split
  · intro h; cases h
  · exact splitGo_ne_fuel _ _ _ _ _

theorem innerIter_cases (l r delim text : Block) :
    (∃ b, innerIter l r delim text = .ok b)
      ∨ innerIter l r delim text = .error .value := by
  rw [innerIter]
  simp only [bind, Except.bind, pure, Except.pure]
  repeat' split
  all_goals
    first
      | exact Or.inr rfl
      | exact Or.inl ⟨_, rfl⟩

theorem innerLoopF_props (l r delim : Block) :
    ∀ (fuel : Nat) (text : Block) (sigs : List Block),
      text.chars.length < fuel →
      innerLoopF l r delim fuel text sigs ≠ .error .fuel
      ∧ (∀ t' s', innerLoopF l r delim fuel text sigs = .ok (t', s', false) →
          (¬ (text.containsB l = true ∧ text.containsB r = true
              ∧ text.containsB delim = true) ∧ t' = text ∧ s' = sigs)
          ∨ t'.chars.length < text.chars.length) := by
  intro fuel
  induction fuel with
  | zero => intro text sigs h; omega
  | succ n ih =>
    intro text sigs hlen
    rw [innerLoopF]
    by_cases hcond : (text.containsB l = true ∧ text.containsB r = true
        ∧ text.containsB delim = true)
    · rw [if_pos (by exact_mod_cast hcond)]
      simp only [bind, Except.bind, pure, Except.pure]
      rcases innerIter_cases l r delim text with ⟨sig, hok⟩ | herr
      · rw [hok]
        simp only []
        set text2 := text.sliceFrom (sig.chars.length + delim.chars.length)
          with htext2
        by_cases hprog : text2 = (⟨text.chars, false, some false⟩ : Block)
        · rw [if_pos hprog]
          constructor
          · intro h
            cases h
          · intro t' s' h
            cases h
        · rw [if_neg hprog]
          have hshort : text2.chars.length < text.chars.length := by
            have hchars : text2.chars = text.chars.drop
                (sig.chars.length + delim.chars.length) := rfl
            by_cases hzero : sig.chars.length + delim.chars.length = 0
            · exfalso
              apply hprog
              rw [htext2]
              simp [Block.sliceFrom, hzero]
            · by_cases hte : text.chars = []
              · exfalso
                apply hprog
                rw [htext2]
                simp [Block.sliceFrom, hte]
              · rw [hchars]
                simp only [List.length_drop]
                have hp : 0 < text.chars.length := List.length_pos.mpr hte
                omega
          have hrec := ih text2 (sigs ++ [sig]) (by omega)
          refine ⟨hrec.1, ?_⟩
          intro t' s' hres
          rcases hrec.2 t' s' hres with ⟨_, rfl, _⟩ | hlt
          · exact Or.inr hshort
          · exact Or.inr (lt_trans hlt hshort)
      · rw [herr]
        constructor
        · intro h
          cases h
        · intro t' s' h
          cases h
    · rw [if_neg (by exact_mod_cast hcond)]
      constructor
      · intro h
        cases h
      · intro t' s' h
        cases h
        exact Or.inl ⟨hcond, rfl, rfl⟩

theorem getD_mem_of_lt (l : List Block) (i : Nat) (h : i < l.length)
    (d : Block) : l.getD i d ∈ l := by
  rw [List.getD_eq_getElem l d h]
  exact List.getElem_mem _

theorem getD_indexOf_self (l : List Block) (a : Block) (h : a ∈ l)
    (d : Block) : l.getD (l.indexOf a) d = a := by
  rw [List.getD_eq_getElem l d (List.indexOf_lt_length.mpr h)]
  exact List.getElem_indexOf (List.indexOf_lt_length.mpr h)

theorem indexOf_le_of_getD (l : List Block) (a : Block) (i : Nat)
    (hi : i < l.length) (d : Block) (hget : l.getD i d = a) :
    l.indexOf a ≤ i := by
  induction l generalizing i with
  | nil => simp at hi
  | cons x t ih =>
    by_cases hxa : x = a
    · simp [List.indexOf_cons, hxa]
    · cases i with
      | zero => simp [List.getD] at hget; exact absurd hget hxa
      | succ j =>
        have h1 := ih j (by simp at hi; omega) (by simpa [List.getD] using hget)
        rw [List.indexOf_cons_ne t hxa]
        omega

theorem lWalkF_all (constants : List Block) (text : Block) :
    ∀ (fuel i : Nat) (cur : Block),
      constants.length ≤ i + fuel → 1 ≤ i →
      cur = constants.getD (i - 1) ⟨[], false, some false⟩ →
      ¬ text.containsB (lWalkF fuel constants text cur i) = true →
      ∀ j, i - 1 ≤ j → j < constants.length →
        ¬ text.containsB (constants.getD j ⟨[], false, some false⟩) = true := by
  intro fuel
  induction fuel with
  | zero =>
    intro i cur hfuel hi hcur hres j hj1 hj2
    have : j = i - 1 := by omega
    subst this
    rw [← hcur]
    exact hres
  | succ n ih =>
    intro i cur hfuel hi hcur hres j hj1 hj2
    rw [lWalkF] at hres
    by_cases hc : (¬ text.containsB cur = true ∧ i < constants.length)
    · rw [if_pos (by exact_mod_cast hc)] at hres
      by_cases hji : j = i - 1
      · subst hji
        rw [← hcur]
        exact hc.1
      · exact ih (i + 1) _ (by omega) (by omega) (by simp) hres j (by omega) hj2
    · rw [if_neg (by exact_mod_cast hc)] at hres
      push_neg at hc
      by_cases hin : text.containsB cur = true
      · exact absurd hin hres
      · have hilen := hc hin
        have : j = i - 1 := by omega
        subst this
        rw [← hcur]
        exact hres

theorem lWalkF_mem (constants : List Block) (text : Block) :
    ∀ (fuel i : Nat) (cur : Block), cur ∈ constants →
      lWalkF fuel constants text cur i ∈ constants := by
  intro fuel
  induction fuel with
  | zero => intro i cur h; exact h
  | succ n ih =>
    intro i cur h
    rw [lWalkF]
    split
    · rename_i hc
      exact ih (i + 1) _ (getD_mem_of_lt constants i hc.2 _)
    · exact h

theorem indexOf_getD_eq (constants : List Block)
    (hdist : constants.Pairwise (fun a b => a = b → bText a = []))
    (p : Nat) (hp : p < constants.length)
    (hne : bText (constants.getD p ⟨[], false, some false⟩) ≠ []) :
    constants.indexOf (constants.getD p ⟨[], false, some false⟩) = p := by
  rw [List.getD_eq_getElem _ _ hp] at hne ⊢
  have hmem : constants[p] ∈ constants := List.getElem_mem hp
  have hidxlt : constants.indexOf constants[p] < constants.length :=
    List.indexOf_lt_length.mpr hmem
  have hle : constants.indexOf constants[p] ≤ p := by
    apply indexOf_le_of_getD constants constants[p] p hp ⟨[], false, some false⟩
    rw [List.getD_eq_getElem _ _ hp]
  rcases Nat.lt_or_ge (constants.indexOf constants[p]) p with hlt2 | hge
  · exfalso
    have hq : constants[constants.indexOf constants[p]] = constants[p] := by
      have := getD_indexOf_self constants constants[p] hmem ⟨[], false, some false⟩
      rwa [List.getD_eq_getElem _ _ hidxlt] at this
    have hr := (List.pairwise_iff_getElem.mp hdist) _ p hidxlt hp hlt2 hq
    rw [hq] at hr
    exact hne hr
  · omega

theorem rWalkF_mem (constants : List Block) (text l : Block) :
    ∀ (fuel : Nat) (r : Block) (i : Int), r ∈ constants → i < 0 →
      rWalkF fuel constants text l r i ∈ constants := by
  intro fuel
  induction fuel with
  | zero => intro r i hr _; exact hr
  | succ n ih =>
    intro r i hr hi
    rw [rWalkF]
    split
    · rename_i hc
      exact ih _ (i - 1)
        (getD_mem_of_lt constants _ (by omega) _) (by omega)
    · exact hr

theorem rWalkF_in (constants : List Block) (text l : Block)
    (hdist : constants.Pairwise (fun a b => a = b → bText a = []))
    (hl : text.containsB l = true) (hmem : l ∈ constants) :
    ∀ (fuel p : Nat), constants.indexOf l ≤ p → p < constants.length →
      p - constants.indexOf l < fuel →
      text.containsB (rWalkF fuel constants text l
        (constants.getD p ⟨[], false, some false⟩)
        ((p : Int) - 1 - constants.length)) = true := by
  intro fuel
  induction fuel with
  | zero => intro p h1 h2 h3; omega
  | succ n ih =>
    intro p h1 h2 h3
    rw [rWalkF]
    by_cases hrp : text.containsB (constants.getD p ⟨[], false, some false⟩) = true
    · rw [if_neg]
      · exact hrp
      · intro hcond
        exact hcond.1 hrp
    · have hne : bText (constants.getD p ⟨[], false, some false⟩) ≠ [] := by
        intro h
        exact hrp (containsB_of_empty text _ h)
      have hidx : constants.indexOf (constants.getD p ⟨[], false, some false⟩) = p :=
        indexOf_getD_eq constants hdist p h2 hne
      have hpgt : constants.indexOf l < p := by
        rcases Nat.lt_or_ge (constants.indexOf l) p with h | h
        · exact h
        · exfalso
          apply hrp
          have hpe : p = constants.indexOf l := by omega
          rw [hpe, getD_indexOf_self constants l hmem]
          exact hl
      rw [if_pos]
      · have harg1 : ((constants.length : Int)
            + ((p : Int) - 1 - constants.length)).toNat = p - 1 := by omega
        have harg2 : ((p : Int) - 1 - (constants.length : Int)) - 1
            = (((p - 1 : Nat)) : Int) - 1 - constants.length := by omega
        rw [harg1, harg2]
        exact ih (p - 1) (by omega) (by omega) (by omega)
      · refine ⟨hrp, by omega, ?_⟩
        simp only [pyIndexBlocks]
        rw [hidx]
        omega

theorem anchors_found (constants : List Block) (text : Block) (c0 cl : Block)
    (hdist : constants.Pairwise (fun a b => a = b → bText a = []))
    (hh : constants.head? = some c0) (hcl : constants.getLast? = some cl)
    (hor : text.containsB (lWalkF (constants.length + 1) constants text c0 1) = true
      ∨ text.containsB (rWalkF (constants.length + 2) constants text
          (lWalkF (constants.length + 1) constants text c0 1) cl (-2)) = true) :
    text.containsB (lWalkF (constants.length + 1) constants text c0 1) = true
      ∧ text.containsB (rWalkF (constants.length + 2) constants text
          (lWalkF (constants.length + 1) constants text c0 1) cl (-2)) = true := by
  have hlen0 : 0 < constants.length := by
    cases constants with
    | nil => cases hh
    | cons a t => simp
  have hc0 : c0 = constants.getD 0 ⟨[], false, some false⟩ := by
    cases constants with
    | nil => cases hh
    | cons a t =>
      simp only [List.head?] at hh
      cases hh
      rfl
  obtain ⟨hlast, hcleq⟩ := List.getElem?_eq_some.mp
    ((List.getLast?_eq_getElem? constants) ▸ hcl)
  have hclD : cl = constants.getD (constants.length - 1) ⟨[], false, some false⟩ := by
    rw [List.getD_eq_getElem _ _ hlast, hcleq]
  have hclmem : cl ∈ constants := by
    rw [← hcleq]
    exact List.getElem_mem hlast
  by_cases hlin : text.containsB
      (lWalkF (constants.length + 1) constants text c0 1) = true
  · refine ⟨hlin, ?_⟩
    have hlm : lWalkF (constants.length + 1) constants text c0 1 ∈ constants := by
      apply lWalkF_mem
      rw [hc0]
      exact getD_mem_of_lt constants 0 hlen0 _
    have hil : constants.indexOf
        (lWalkF (constants.length + 1) constants text c0 1) < constants.length :=
      List.indexOf_lt_length.mpr hlm
    have := rWalkF_in constants text _ hdist hlin hlm
      (constants.length + 2) (constants.length - 1) (by omega) (by omega) (by omega)
    rw [hclD]
    have hi2 : (((constants.length - 1 : Nat)) : Int) - 1 - (constants.length : Int)
        = -2 := by omega
    rw [← hi2]
    exact this
  · exfalso
    have hall := lWalkF_all constants text (constants.length + 1) 1 c0
      (by omega) (by omega) (by simpa using hc0) hlin
    rcases hor with h | h
    · exact hlin h
    · have hrm : rWalkF (constants.length + 2) constants text
          (lWalkF (constants.length + 1) constants text c0 1) cl (-2) ∈ constants :=
        rWalkF_mem constants text _ _ cl (-2) hclmem (by omega)
      have hreq := getD_indexOf_self constants _ hrm ⟨[], false, some false⟩
      have := hall (constants.indexOf (rWalkF (constants.length + 2) constants text
          (lWalkF (constants.length + 1) constants text c0 1) cl (-2)))
        (by omega) (List.indexOf_lt_length.mpr hrm)
      rw [hreq] at this
      exact this h

theorem outerLoopF_ne_fuel (constants : List Block) (delim : Block)
    (hdist : constants.Pairwise (fun a b => a = b → bText a = [])) :
    ∀ (fuel : Nat) (finished : Bool) (text : Block) (sigs : List Block),
      1 ≤ fuel → (finished = false → text.chars.length + 1 ≤ fuel) →
      outerLoopF constants delim fuel finished text sigs ≠ .error .fuel := by
  intro fuel
  induction fuel with
  | zero => intro _ _ _ h _; exact absurd h (by omega)
  | succ n ih =>
    intro finished text sigs hpos hlen heq
    rw [outerLoopF] at heq
    by_cases hrun : (¬ finished = true ∧ text.chars ≠ [])
    · rw [if_pos hrun] at heq
      have hfin : finished = false := by
        cases finished
        · rfl
        · exact absurd rfl hrun.1
      have htlen : 1 ≤ text.chars.length := List.length_pos.mpr hrun.2
      have hnlen : text.chars.length ≤ n := by
        have := hlen hfin
        omega
      cases hh : constants.head? with
      | none =>
        rw [hh] at heq
        simp only [] at heq
        exact PErr.noConfusion (Except.error.inj heq)
      | some c0 =>
        rw [hh] at heq
        simp only [] at heq
        cases hcl : constants.getLast? with
        | none =>
          rw [hcl] at heq
          simp only [] at heq
          exact PErr.noConfusion (Except.error.inj heq)
        | some cl =>
          rw [hcl] at heq
          simp only [] at heq
          set l := lWalkF (constants.length + 1) constants text c0 1 with hldef
          set r := rWalkF (constants.length + 2) constants text l cl (-2) with hrdef
          by_cases hfall : ((¬ text.containsB l ∧ ¬ text.containsB r)
              ∨ (l = delim ∧ r = delim)
              ∨ ¬ pySubstr (bText text) (bText delim))
          · rw [if_pos hfall] at heq
            cases hsp : text.split delim with
            | error e =>
              rw [hsp] at heq
              simp only [bind, Except.bind] at heq
              cases heq
              exact split_ne_fuel text delim hsp
            | ok v =>
              rw [hsp] at heq
              simp only [bind, Except.bind, pure, Except.pure] at heq
              exact Except.noConfusion heq
          · rw [if_neg hfall] at heq
            have hinprops := innerLoopF_props l r delim
              (text.chars.length + 1) text sigs (by omega)
            cases hin : innerLoopF l r delim (text.chars.length + 1) text sigs with
            | error e =>
              rw [hin] at heq
              simp only [bind, Except.bind] at heq
              cases heq
              exact hinprops.1 hin
            | ok res =>
              rw [hin] at heq
              simp only [bind, Except.bind] at heq
              obtain ⟨t', s', fin⟩ := res
              cases fin with
              | true =>
                exact ih true t' s' (by omega) (fun h => Bool.noConfusion h) heq
              | false =>
                rcases hinprops.2 t' s' hin with ⟨hne, hteq, hseq⟩ | hshrink
                · have hsub : pySubstr (bText text) (bText delim) = true := by
                    by_contra h
                    exact hfall (Or.inr (Or.inr h))
                  have hde : text.containsB delim = true := by
                    rw [containsB_eq_substr]
                    exact hsub
                  have hor : text.containsB l = true ∨ text.containsB r = true := by
                    by_contra h
                    push_neg at h
                    exact hfall (Or.inl ⟨h.1, h.2⟩)
                  rw [hldef] at hor
                  rw [hrdef, hldef] at hor
                  have hanch := anchors_found constants text c0 cl hdist hh hcl hor
                  exact hne ⟨hanch.1, hanch.2, hde⟩
                · exact ih false t' s' (by omega) (fun _ => by omega) heq
    · rw [if_neg hrun] at heq
      exact Except.noConfusion heq

/-- **C8.** The complex-split loop of the record splitter
(`Spectrum.complex_parse_into_signals`, spectrum.py:187-300) terminates on
every input: modelled with fuel `len(text) + 2` for the outer loop and
`len(text) + 1` for the inner anchored loop, the fuel is never exhausted —
each inner iteration either strictly consumes part of the remaining text
or the explicit progress check (`self.text == text_`) ends the loop, and
each outer iteration either finishes via the fallback direct split or
hands a strictly shorter text to the next round.  The hypothesis `hdist`
states that two `==`-equal constant blocks at distinct positions are
empty; it holds in every actual run because Python's `Char.__eq__`
compares `Char` objects by identity, so distinct non-empty constant
blocks are never `==`-equal. -/
theorem c8_complex_split_terminates (constants : List Block) (delim text : Block)
    (hdist : constants.Pairwise (fun a b => a = b → bText a = [])) :
    complexParse constants delim text ≠ .error .fuel := by
  rw [complexParse]
  exact outerLoopF_ne_fuel constants delim hdist (text.chars.length + 2) false text []
    (by omega) (fun _ => by omega)

theorem c8_complex_split_terminates_witness :
    complexParse [mkStr "a"] (mkStr ";") (mkRaw "a;b;a;c") ≠ .error .fuel :=
  c8_complex_split_terminates [mkStr "a"] (mkStr ";") (mkRaw "a;b;a;c") (by decide)

theorem rankAux_enumFrom (l : List Nat) :
    ∀ j, rankAux j l = ((List.enumFrom j l).map (fun p => Nat.choose p.2 (p.1 + 1))).sum := by
  induction l with
  | nil => intro j; rfl
  | cons a rest ih =>
    intro j
    simp only [rankAux, List.enumFrom, List.map, List.sum_cons, ih (j + 1)]

theorem colexRank_eq_rankAux (l : List Nat) : colexRank l = rankAux 0 l := by
  rw [colexRank, List.enum, rankAux_enumFrom]

theorem rankAux_append (xs ys : List Nat) :
    ∀ j, rankAux j (xs ++ ys) = rankAux j xs + rankAux (j + xs.length) ys := by
  induction xs with
  | nil => intro j; simp [rankAux]
  | cons a rest ih =>
    intro j
    simp only [List.cons_append, rankAux, List.length_cons, List.append_eq]
    have h2 : j + (rest.length + 1) = j + 1 + rest.length := by omega
    rw [h2, ih (j + 1)]
    omega

theorem rankAux_range' (n : Nat) : ∀ j, rankAux j (List.range' j n) = 0 := by
  induction n with
  | zero => intro j; rfl
  | succ m ih =>
    intro j
    rw [List.range'_succ]
    simp only [rankAux, ih (j + 1)]
    simp [Nat.choose_eq_zero_of_lt (Nat.lt_succ_self j)]

theorem colexRank_range (m : Nat) : colexRank (List.range m) = 0 := by
  rw [colexRank_eq_rankAux, List.range_eq_range']
  exact rankAux_range' m 0

theorem buildPref_length (w i : Nat) : (buildPref w i).length = i := by
  simp [buildPref]

theorem buildPref_eq_range' (i w : Nat) (h : i ≤ w) :
    buildPref w i = List.range' (w - i) i := by
  rw [buildPref, List.range'_eq_map_range]
  apply List.map_congr_left
  intro j hj
  rw [List.mem_range] at hj
  omega

theorem buildPref_succ (w i : Nat) (h : i + 1 ≤ w) :
    buildPref w (i + 1) = buildPref (w - 1) i ++ [w - 1] := by
  rw [buildPref, buildPref, List.range_succ, List.map_append]
  congr 1
  · apply List.map_congr_left
    intro j hj
    rw [List.mem_range] at hj
    omega
  · simp

theorem rankAux_buildPref (i : Nat) :
    ∀ w, i ≤ w → rankAux 0 (buildPref w i) + 1 = Nat.choose w i := by
  induction i with
  | zero =>
    intro w _
    simp [buildPref, rankAux]
  | succ m ih =>
    intro w hw
    cases w with
    | zero => omega
    | succ w' =>
      rw [buildPref_succ _ _ hw, rankAux_append, buildPref_length]
      simp only [Nat.add_sub_cancel, Nat.zero_add]
      have h1 : rankAux m [w'] = Nat.choose w' (m + 1) := by
        simp [rankAux]
      rw [h1, Nat.choose_succ_succ]
      simp only [Nat.succ_eq_add_one]
      have := ih w' (by omega)
      omega

theorem initLeftout_eq_buildPref (n len : Nat) (h : n ≤ len) :
    initLeftout n len = buildPref len (len - n) := by
  rw [initLeftout, buildPref_eq_range' _ _ (by omega)]
  congr 1
  omega

theorem initLeftout_rank (n len : Nat) (h : n ≤ len) :
    colexRank (initLeftout n len) + 1 = Nat.choose len (len - n) := by
  rw [initLeftout_eq_buildPref n len h, colexRank_eq_rankAux]
  exact rankAux_buildPref (len - n) len (by omega)

theorem decompose_from (l : List Nat) :
    ∀ j, l.Pairwise (· < ·) → (∀ x ∈ l, j ≤ x) →
      l = List.range' j l.length
        ∨ ∃ i v tail, l = List.range' j i ++ v :: tail ∧ j + i < v := by
  induction l with
  | nil => intro j _ _; left; rfl
  | cons a rest ih =>
    intro j hp hge
    have ha : j ≤ a := hge a (by simp)
    rcases Nat.lt_or_ge j a with hlt | hgej
    · right
      exact ⟨0, a, rest, by simp, by omega⟩
    · have haj : a = j := by omega
      subst haj
      have hrest : ∀ x ∈ rest, a + 1 ≤ x := by
        intro x hx
        exact (List.pairwise_cons.mp hp).1 x hx
      rcases ih (a + 1) (List.pairwise_cons.mp hp).2 hrest with hpack | ⟨i, v, tail, heq, hv⟩
      · left
        rw [List.length_cons, List.range'_succ]
        rw [← hpack]
      · right
        refine ⟨i + 1, v, tail, ?_, by omega⟩
        rw [List.range'_succ, List.cons_append, ← heq]

theorem fcScan_found (v : Nat) (tail : List Nat) (full : List Nat)
    (hv : ¬ (v - 1) ∈ full) :
    ∀ (i s : Nat), (∀ t, s ≤ t → t < s + i → (t - 1) ∈ full) →
      fcScan full s (List.range' s i ++ v :: tail) = some (s + i, v) := by
  intro i
  induction i with
  | zero =>
    intro s _
    simp only [List.range', List.nil_append, fcScan]
    rw [if_pos hv]
    simp
  | succ m ih =>
    intro s hmem
    rw [List.range'_succ, List.cons_append, fcScan]
    rw [if_neg (by simpa using hmem s (by omega) (by omega))]
    have := ih (s + 1) (fun t ht1 ht2 => hmem t (by omega) (by omega))
    rw [this]
    congr 2
    omega

theorem fcScan_exhausted (full : List Nat) :
    ∀ (i s : Nat), (∀ t, s ≤ t → t < s + i → (t - 1) ∈ full) →
      fcScan full s (List.range' s i) = none := by
  intro i
  induction i with
  | zero => intro s _; rfl
  | succ m ih =>
    intro s hmem
    rw [List.range'_succ, fcScan]
    rw [if_neg (by simpa using hmem s (by omega) (by omega))]
    exact ih (s + 1) (fun t ht1 ht2 => hmem t (by omega) (by omega))

theorem fcStep_range_none (m : Nat) : fcStep (List.range m) = none := by
  cases m with
  | zero => rfl
  | succ m' =>
    rw [List.range_eq_range', List.range'_succ, fcStep]
    rw [if_neg (by omega)]
    have hsc : fcScan (0 :: List.range' 1 m') 1 (List.range' 1 m') = none := by
      apply fcScan_exhausted
      intro t ht1 ht2
      rcases Nat.eq_or_lt_of_le ht1 with h1 | h1
      · simp [← h1]
      · apply List.mem_cons_of_mem
        rw [List.mem_range'_1]
        omega
    rw [hsc]

theorem fcStep_decomp (i v : Nat) (tail : List Nat) (hiv : i < v)
    (htail : ∀ x ∈ tail, v < x) :
    fcStep (List.range i ++ v :: tail)
      = some (buildPref (v - 1) i ++ (v - 1) :: tail) := by
  cases i with
  | zero =>
    simp only [List.range_zero, List.nil_append, fcStep]
    rw [if_pos hiv]
    have : buildPref (v - 1) 0 = [] := rfl
    rw [this, List.nil_append]
  | succ m =>
    rw [List.range_eq_range', List.range'_succ, List.cons_append, fcStep]
    rw [if_neg (by omega)]
    simp only [Nat.zero_add]
    have hvne : ¬ (v - 1) ∈ (0 :: (List.range' 1 m ++ v :: tail)) := by
      intro hmem
      rcases List.mem_cons.mp hmem with h | h
      · omega
      · rcases List.mem_append.mp h with h2 | h2
        · rw [List.mem_range'_1] at h2
          omega
        · rcases List.mem_cons.mp h2 with h3 | h3
          · omega
          · have := htail _ h3
            omega
    have hsc := fcScan_found v tail (0 :: (List.range' 1 m ++ v :: tail)) hvne m 1
      (by
        intro t ht1 ht2
        rcases Nat.eq_or_lt_of_le ht1 with h1 | h1
        · simp [← h1]
        · apply List.mem_cons_of_mem
          apply List.mem_append_left
          rw [List.mem_range'_1]
          omega)
    rw [hsc]
    have hdrop : (0 :: (List.range' 1 m ++ v :: tail)).drop (1 + m + 1) = tail := by
      have hform : 0 :: (List.range' 1 m ++ v :: tail)
          = ((0 :: List.range' 1 m) ++ [v]) ++ tail := by simp
      rw [hform]
      have hlen : ((0 :: List.range' 1 m) ++ [v]).length = 1 + m + 1 := by
        simp [Nat.add_comm]
      rw [← hlen, List.drop_left]
    simp only []
    rw [hdrop, Nat.add_comm 1 m]

theorem fcStep_valid (i v : Nat) (tail : List Nat) (hiv : i < v)
    (hp : (v :: tail).Pairwise (· < ·)) :
    (buildPref (v - 1) i ++ (v - 1) :: tail).Pairwise (· < ·) := by
  have htail : ∀ x ∈ tail, v < x := fun x hx => (List.pairwise_cons.mp hp).1 x hx
  rw [buildPref_eq_range' i (v - 1) (by omega)]
  rw [List.pairwise_append]
  refine ⟨List.pairwise_lt_range' _ _, ?_, ?_⟩
  · rw [List.pairwise_cons]
    exact ⟨fun x hx => by have := htail x hx; omega, (List.pairwise_cons.mp hp).2⟩
  · intro a ha b hb
    rw [List.mem_range'_1] at ha
    rcases List.mem_cons.mp hb with h | h
    · omega
    · have := htail b h
      omega

theorem fcStep_cases (l : List Nat) (hv : l.Pairwise (· < ·)) :
    (fcStep l = none ∧ colexRank l = 0)
      ∨ ∃ l2, fcStep l = some l2 ∧ l2.Pairwise (· < ·)
          ∧ colexRank l2 + 1 = colexRank l := by
  rcases decompose_from l 0 hv (fun x _ => Nat.zero_le x) with hpack | ⟨i, v, tail, heq, hval⟩
  · left
    rw [hpack, ← List.range_eq_range']
    exact ⟨fcStep_range_none _, colexRank_range _⟩
  · right
    rw [← List.range_eq_range'] at heq
    rw [Nat.zero_add] at hval
    have hvt : (v :: tail).Pairwise (· < ·) := by
      rw [heq, List.pairwise_append] at hv
      exact hv.2.1
    refine ⟨buildPref (v - 1) i ++ (v - 1) :: tail, ?_, ?_, ?_⟩
    · rw [heq]
      exact fcStep_decomp i v tail hval (fun x hx => (List.pairwise_cons.mp hvt).1 x hx)
    · exact fcStep_valid i v tail hval hvt
    · rw [heq, colexRank_eq_rankAux, colexRank_eq_rankAux]
      rw [rankAux_append, rankAux_append, buildPref_length, List.length_range]
      have hr0 : rankAux 0 (List.range i) = 0 := by
        rw [List.range_eq_range']
        exact rankAux_range' i 0
      rw [hr0]
      simp only [rankAux, Nat.zero_add]
      have hhs := rankAux_buildPref i (v - 1) (by omega)
      have hpasc : Nat.choose v (i + 1)
          = Nat.choose (v - 1) i + Nat.choose (v - 1) (i + 1) := by
        cases v with
        | zero => omega
        | succ v' =>
          simp only [Nat.add_sub_cancel]
          exact Nat.choose_succ_succ v' i
      omega

theorem fcRun_ranks :
    ∀ (R : Nat) (l : List Nat) (fuel : Nat), l.Pairwise (· < ·) →
      colexRank l = R → R ≤ fuel →
      (fcRun fuel l).map colexRank = (List.range (R + 1)).reverse := by
  intro R
  induction R with
  | zero =>
    intro l fuel hv hr _
    have hnone : fcStep l = none := by
      rcases fcStep_cases l hv with ⟨h1, _⟩ | ⟨l2, _, _, hrank⟩
      · exact h1
      · omega
    cases fuel with
    | zero => simp [fcRun, hr, List.range_succ]
    | succ f =>
      rw [fcRun, hnone]
      simp [hr, List.range_succ]
  | succ R' ih =>
    intro l fuel hv hr hfuel
    rcases fcStep_cases l hv with ⟨_, h0⟩ | ⟨l2, hstep, hv2, hrank⟩
    · omega
    · cases fuel with
      | zero => omega
      | succ f =>
        rw [fcRun, hstep]
        simp only [List.map_cons]
        rw [ih l2 f hv2 (by omega) (by omega)]
        rw [hr]
        conv_rhs => rw [List.range_succ]
        simp

theorem findCombinations_length (aList : List (List Block)) (n : Nat)
    (h : n ≤ aList.length) :
    (findCombinations aList n).length = Nat.choose aList.length n := by
  rw [findCombinations]
  by_cases h0 : initLeftout n aList.length = []
  · rw [if_pos h0]
    have hlen : aList.length = n := by
      rw [initLeftout] at h0
      have := List.range'_eq_nil.mp h0
      omega
    simp [hlen, Nat.choose_self]
  · rw [if_neg h0]
    rw [List.length_map]
    have hv : (initLeftout n aList.length).Pairwise (· < ·) :=
      List.pairwise_lt_range' _ _
    have hmap := fcRun_ranks (colexRank (initLeftout n aList.length))
      (initLeftout n aList.length) (colexRank (initLeftout n aList.length) + 1)
      hv rfl (by omega)
    have hlen1 : (fcRun (colexRank (initLeftout n aList.length) + 1)
        (initLeftout n aList.length)).length
        = colexRank (initLeftout n aList.length) + 1 := by
      have := congrArg List.length hmap
      simpa using this
    rw [hlen1]
    rw [initLeftout_rank n aList.length h]
    exact Nat.choose_symm h

/-- **C1.** Hypothesis generation (`Hypotheses.__init__`,
formatter.py:230-258, with `find_combinations`, formatter.py:265-318).
For a signal section whose pieces list has `k` optional pieces: there are
`k + 1` hypothesis groups; the group at index `j` is the one built for
`n = k - j` included optional pieces, so groups are ordered by strictly
decreasing `n` (fullest first); the group for `n` holds exactly `C(k, n)`
hypotheses, making the total `Σ_{n=0..k} C(k, n)`; and within a group the
combinations are generated by the `leftout` walk that starts from
`[n, …, k-1]` — the combination dropping the latest optional pieces — and
whose visited states have colexicographic ranks `R, R-1, …, 0`, i.e.
combinations closer to "drop the latest pieces" sort strictly earlier. -/
theorem c1_hypothesis_enumeration (sec : List Block) :
    (hypothesesInit sec).length = (oddIdx (toPieces sec)).length + 1
    ∧ (∀ j, j ≤ (oddIdx (toPieces sec)).length →
        (hypothesesInit sec).getD j []
          = buildGroup (toPieces sec) ((oddIdx (toPieces sec)).length - j))
    ∧ (∀ n, n ≤ (oddIdx (toPieces sec)).length →
        (buildGroup (toPieces sec) n).length
          = Nat.choose (oddIdx (toPieces sec)).length n)
    ∧ ((hypothesesInit sec).map List.length).sum
        = ((List.range ((oddIdx (toPieces sec)).length + 1)).map
            (fun n => Nat.choose (oddIdx (toPieces sec)).length n)).sum
    ∧ (∀ n, n < (oddIdx (toPieces sec)).length →
        findCombinations (oddIdx (toPieces sec)) n
          = (fcRun (colexRank (initLeftout n (oddIdx (toPieces sec)).length) + 1)
              (initLeftout n (oddIdx (toPieces sec)).length)).map
              (combOf (oddIdx (toPieces sec)))
        ∧ (findCombinations (oddIdx (toPieces sec)) n).headD []
            = combOf (oddIdx (toPieces sec))
                (initLeftout n (oddIdx (toPieces sec)).length)
        ∧ (fcRun (colexRank (initLeftout n (oddIdx (toPieces sec)).length) + 1)
            (initLeftout n (oddIdx (toPieces sec)).length)).map colexRank
          = (List.range (colexRank
              (initLeftout n (oddIdx (toPieces sec)).length) + 1)).reverse) := by
  refine ⟨?_, ?_, ?_, ?_, ?_⟩
  · rw [hypothesesInit]
    simp
  · intro j hj
    rw [hypothesesInit]
    have hlenrev : (((List.range ((oddIdx (toPieces sec)).length + 1)).map
        (fun n => buildGroup (toPieces sec) n)).reverse).length
        = (oddIdx (toPieces sec)).length + 1 := by simp
    rw [List.getD_eq_getElem _ _ (by rw [hlenrev]; omega)]
    rw [List.getElem_reverse]
    rw [List.getElem_map]
    rw [List.getElem_range]
    congr 1
    simp only [List.length_map, List.length_range]
    omega
  · intro n hn
    rw [buildGroup, List.length_map]
    exact findCombinations_length _ n hn
  · rw [hypothesesInit]
    simp only [List.map_reverse, List.sum_reverse, List.map_map]
    apply congrArg List.sum
    apply List.map_congr_left
    intro n hn
    rw [List.mem_range] at hn
    simp only [Function.comp_apply]
    rw [buildGroup, List.length_map]
    exact findCombinations_length _ n (by omega)
  · intro n hn
    have hne : initLeftout n (oddIdx (toPieces sec)).length ≠ [] := by
      intro h
      rw [initLeftout] at h
      have := List.range'_eq_nil.mp h
      omega
    have hfc : findCombinations (oddIdx (toPieces sec)) n
        = (fcRun (colexRank (initLeftout n (oddIdx (toPieces sec)).length) + 1)
            (initLeftout n (oddIdx (toPieces sec)).length)).map
            (combOf (oddIdx (toPieces sec))) := by
      rw [findCombinations]
      rw [if_neg hne]
    refine ⟨hfc, ?_, ?_⟩
    · rw [hfc]
      have hrun : fcRun (colexRank (initLeftout n (oddIdx (toPieces sec)).length) + 1)
          (initLeftout n (oddIdx (toPieces sec)).length)
          = initLeftout n (oddIdx (toPieces sec)).length ::
            (match fcStep (initLeftout n (oddIdx (toPieces sec)).length) with
             | none => []
             | some l2 => fcRun (colexRank (initLeftout n
                 (oddIdx (toPieces sec)).length)) l2) := by
        rw [fcRun]
      rw [hrun]
      rfl
    · exact fcRun_ranks _ _ _ (List.pairwise_lt_range' _ _) rfl (by omega)

theorem c1_hypothesis_enumeration_witness :
    (0 ≤ (oddIdx (toPieces c1Sec)).length
      ∧ (hypothesesInit c1Sec).getD 0 []
          = buildGroup (toPieces c1Sec) ((oddIdx (toPieces c1Sec)).length - 0))
    ∧ (1 ≤ (oddIdx (toPieces c1Sec)).length
      ∧ (buildGroup (toPieces c1Sec) 1).length
          = Nat.choose (oddIdx (toPieces c1Sec)).length 1)
    ∧ (0 < (oddIdx (toPieces c1Sec)).length
      ∧ (findCombinations (oddIdx (toPieces c1Sec)) 0).headD []
          = combOf (oddIdx (toPieces c1Sec))
              (initLeftout 0 (oddIdx (toPieces c1Sec)).length)) :=
  ⟨⟨by decide, (c1_hypothesis_enumeration c1Sec).2.1 0 (by decide)⟩,
   ⟨by decide, (c1_hypothesis_enumeration c1Sec).2.2.1 1 (by decide)⟩,
   ⟨by decide, ((c1_hypothesis_enumeration c1Sec).2.2.2.2 0 (by decide)).2.1⟩⟩

end NMRRep
